import Mathlib

/-!
# Feature location in software product lines — verification

Shallow embedding of the feature-location engine of this repository
(`src/features/features.hpp` and `src/fl/fl.cpp`) together with proofs about
the three set-difference isolation strategies, the combination generator,
the model catalog and the closed-form bitmask arithmetic.

Conventions of the embedding:
* C++ `uintmax_t` (64 bit unsigned) arithmetic is modelled as `Nat` with an
  explicit reduction modulo `W = 2 ^ 64` at every operation that can wrap
  (multiplication, shift, subtraction); `~x` becomes `x ^^^ (W - 1)`.
* `std::string` is `String`, `std::vector` is `List`.
* `std::set<std::string>` is a strictly sorted `List String` (the
  representation invariant of a `std::set`): insertion keeps order and drops
  duplicates, iteration is in sorted order, `*begin()` is the head.  The
  comparator is `strLt`, character-wise lexicographic comparison — exactly
  `operator<` of `std::string` (the analysed strings are ASCII).
* `std::sort` on a vector of strings is modelled by `List.insertionSort`
  over the same comparator: its observable result (a sorted permutation) is
  the same.
* Functions that can throw (`std::logic_error`, `std::length_error`) are
  embedded in `Except String`.  Calls of `.at` whose index is provably in
  range in every reachable call of the analysed code are embedded with `getD`.
-/

namespace Features

/-- The modulus of 64-bit unsigned arithmetic (`uintmax_t`). -/
def W : Nat := 2 ^ 64

/-- C++ bitwise complement `~x` on `uintmax_t`: xor with the all-ones word.
For `x < W` this equals `W - 1 - x`. -/
def cNot (x : Nat) : Nat := x ^^^ (W - 1)

/-- C++ 64-bit subtraction `a - b` (wrapping), used where the sources subtract
unsigned values that could wrap. -/
def wsub (a b : Nat) : Nat := (a + (W - b % W)) % W

/-- `power(base, exponent)` from features.hpp and fl.cpp: `result *= base`,
`exponent` times, on `uintmax_t`. -/
def power (base : Nat) : Nat → Nat
  | 0 => 1
  | e + 1 => (power base e * base) % W

/-- `power2(e) = power(2, e)` from features.hpp. -/
def power2 (e : Nat) : Nat := power 2 e

/-- Iterations of the `while (from <= to) result *= to--;` loop of `product`:
`product_go acc t k` multiplies `acc` by `t, t-1, …` for `k` iterations. -/
def product_go : Nat → Nat → Nat → Nat
  | acc, _, 0 => acc
  | acc, t, k + 1 => product_go ((acc * t) % W) (t - 1) k

/-- `product(from, to)` from features.hpp: product of the numbers in
`[from, to]`, with the special case `0` when either end is `0`. -/
def product (f t : Nat) : Nat :=
  if f = 0 ∨ t = 0 then 0 else product_go 1 t (t + 1 - f)

/-- `factorial(n)` from features.hpp. -/
def factorial (n : Nat) : Nat :=
  if n = 0 then 1 else product 1 n

/-- `combinations(n, k)` from features.hpp: `product(n + 1 - k, n) / factorial(k)`
(the C++ subtraction is unsigned and may wrap, hence `wsub`). -/
def combinations (n k : Nat) : Nat :=
  product (wsub (n + 1) k) n / factorial k

/-- `sum_of_combinations(n, k)` from features.hpp: sum of `combinations(n, j)`
for `j` in `[k, n]`. -/
def sum_of_combinations (n k : Nat) : Nat :=
  (List.range' k (n + 1 - k)).foldl (fun acc j => (acc + combinations n j) % W) 0

/-- `unsigned2vector(u)` from features.hpp: the 1-based positions of the set
bits of `u` (64-bit word), in ascending order. -/
def unsigned2vector (u : Nat) : List Nat :=
  (List.range 64).filterMap (fun bit => if u.testBit bit then some (bit + 1) else none)

/-- `negate(v, n)` from features.hpp: the elements of `[1, n]` not contained
in `v`, ascending. -/
def negate (v : List Nat) (n : Nat) : List Nat :=
  (List.range' 1 n).filter (fun i => decide (i ∉ v))

/-- `hasO(M)` from features.hpp: models with or-features. -/
def hasO (M : Nat) : Bool :=
  M == 2 || M == 4 || M == 6 || M == 8 || M == 11 || M == 13 ||
  M == 14 || M == 16 || M == 17 || M == 19

/-- `hasA(M)` from features.hpp: models with and-features. -/
def hasA (M : Nat) : Bool :=
  M == 3 || M == 4 || M == 7 || M == 8 || M == 12 || M == 13 ||
  M == 15 || M == 16 || M == 18 || M == 19

/-- `hasN(M)` from features.hpp: models with not-features. -/
def hasN (M : Nat) : Bool :=
  M == 5 || M == 6 || M == 7 || M == 8 || M == 9 || M == 10 ||
  M == 11 || M == 12 || M == 13 || M == 14 || M == 15 ||
  M == 16 || M == 17 || M == 18 || M == 19

/-- `hasON(M)` from features.hpp: models with or-not-features. -/
def hasON (M : Nat) : Bool :=
  M == 9 || M == 11 || M == 12 || M == 13 || M == 17 ||
  M == 18 || M == 19

/-- `hasAN(M)` from features.hpp: models with and-not-features. -/
def hasAN (M : Nat) : Bool :=
  M == 10 || M == 14 || M == 15 || M == 16 || M == 17 ||
  M == 18 || M == 19

/-- String constant `feature` ("f"). -/
def feature : String := "f"

/-- String constant `feature_or` ("+"). -/
def feature_or : String := "+"

/-- String constant `feature_and` ("*"). -/
def feature_and : String := "*"

/-- String constant `feature_not` ("!"). -/
def feature_not : String := "!"

/-- String constant `feature_separator` (" "). -/
def feature_separator : String := " "

/-- String constant `system` ("S"). -/
def system : String := "S"

/-- String constant `separator` ("\t"). -/
def separator : String := "\t"

/-- `independent_feature_name(i)` from features.hpp. -/
def independent_feature_name (i : Nat) : String := feature ++ toString i

/-- `or_feature_name(ids)` from features.hpp.  The C++ reads `ids.at(0)` and
would throw on an empty vector; every reachable call passes a non-empty
combination, the embedding returns `""` on `[]`. -/
def or_feature_name : List Nat → String
  | [] => ""
  | i :: rest =>
    rest.foldl
      (fun acc j => acc ++ feature_separator ++ feature_or ++ feature_separator
        ++ feature ++ toString j)
      (feature ++ toString i)

/-- `and_feature_name(ids)` from features.hpp (empty case as in
`or_feature_name`). -/
def and_feature_name : List Nat → String
  | [] => ""
  | i :: rest =>
    rest.foldl
      (fun acc j => acc ++ feature_separator ++ feature_and ++ feature_separator
        ++ feature ++ toString j)
      (feature ++ toString i)

/-- `not_feature_name(i)` from features.hpp. -/
def not_feature_name (i : Nat) : String := feature_not ++ feature ++ toString i

/-- `or_not_feature_name(ids)` from features.hpp (empty case as in
`or_feature_name`). -/
def or_not_feature_name : List Nat → String
  | [] => ""
  | i :: rest =>
    rest.foldl
      (fun acc j => acc ++ feature_separator ++ feature_or ++ feature_separator
        ++ feature_not ++ feature ++ toString j)
      (feature_not ++ feature ++ toString i)

/-- `and_not_feature_name(ids)` from features.hpp (empty case as in
`or_feature_name`). -/
def and_not_feature_name : List Nat → String
  | [] => ""
  | i :: rest =>
    rest.foldl
      (fun acc j => acc ++ feature_separator ++ feature_and ++ feature_separator
        ++ feature_not ++ feature ++ toString j)
      (feature_not ++ feature ++ toString i)

/-- `system_name(n)` from features.hpp. -/
def system_name (n : Nat) : String := system ++ toString n

/-- Character-wise lexicographic strict comparison of character lists
(`operator<` of `std::string`, by character code). -/
def charsLt : List Char → List Char → Bool
  | [], [] => false
  | [], _ :: _ => true
  | _ :: _, [] => false
  | a :: as, b :: bs =>
    Nat.blt a.toNat b.toNat || (Nat.beq a.toNat b.toNat && charsLt as bs)

/-- `operator<` of `std::string`. -/
def strLt (a b : String) : Bool := charsLt a.data b.data

/-- `operator<=` of `std::string`. -/
def strLe (a b : String) : Bool := !strLt b a

/-- `std::set<std::string>::insert`: insert into a strictly sorted list,
keeping order, dropping an already-present element. -/
def setInsert (x : String) : List String → List String
  | [] => [x]
  | y :: l =>
    if strLt x y then x :: y :: l
    else if strLt y x then y :: setInsert x l
    else y :: l

/-- Build a `std::set<std::string>` from a list of insertions. -/
def setOfList (l : List String) : List String :=
  l.foldl (fun s x => setInsert x s) []

/-- `std::set_intersection` on sorted ranges (result as a sorted set). -/
def setInter (a b : List String) : List String := a.filter (fun x => b.contains x)

/-- `std::set_union` on sorted ranges (result as a sorted set). -/
def setUnion (a b : List String) : List String :=
  b.foldl (fun s x => setInsert x s) a

/-- `std::set_difference` on sorted ranges (result as a sorted set). -/
def setDiff (a b : List String) : List String := a.filter (fun x => !b.contains x)

/-- Initial state of `combination_t` (`initialize()` of features.hpp and
fl.cpp): the consecutive indices `[0, …, k-1]`. -/
def combination_first (k : Nat) : List Nat := List.range k

/-- `combination_t::next()` of features.hpp / fl.cpp on state `s` over `n`
symbols.  The C++ scans positions from the rightmost to the leftmost and
increments the first position `i` (1-based) whose value `v` satisfies
`v + 1 + k - i < n`, resetting everything to its right to consecutive values;
it returns `false` (here `none`) when no position qualifies.  The recursion
tries the tail (the positions to the right) first, so the rightmost
incrementable position wins, exactly as in the loop; for the position at the
head of a suffix of length `m`, `v + 1 + k - i = v + m`. -/
def combination_next (n : Nat) : List Nat → Option (List Nat)
  | [] => none
  | v :: rest =>
    match combination_next n rest with
    | some rest' => some (v :: rest')
    | none =>
      if v + (rest.length + 1) < n then some (List.range' (v + 1) (rest.length + 1))
      else none

/-- The `do { …; } while (c.next());` loop of the sources: emit the current
state, then advance; `fuel` bounds the number of advances (the callers use
`Nat.choose n k`, which is proved sufficient below). -/
def combination_run (n : Nat) : Nat → List Nat → List (List Nat)
  | 0, s => [s]
  | fuel + 1, s =>
    match combination_next n s with
    | none => [s]
    | some s' => s :: combination_run n fuel s'

/-- All states produced by a `combination_t(symbols, k)` exemplar with `n`
symbols, in generation order. -/
def combination_all (n k : Nat) : List (List Nat) :=
  combination_run n (Nat.choose n k) (combination_first k)

/-- The `combination_t` constructor of features.hpp: throws a
`std::logic_error` when `k > symbols.size()`, otherwise the exemplar
enumerates `combination_all`, with states mapped through the symbol vector
(`operator()` reads `m_symbols.at(e)`). -/
def combination_new (symbols : List Nat) (k : Nat) : Except String (List (List Nat)) :=
  if k > symbols.length then
    Except.error ("n = " ++ toString symbols.length ++ ", k = " ++ toString k ++
      " violates n >= k!")
  else
    Except.ok ((combination_all symbols.length k).map
      (fun st => st.map (fun e => symbols.getD e 0)))

/-- The lexicographically last `k`-combination of `{0, …, n-1}`:
`[n-k, …, n-1]`. -/
def combination_last (n k : Nat) : List Nat := List.range' (n - k) k

/-- `m_raw_independent_features` of `feature_location_t`: `[1, …, n]`. -/
def raw_independent_features (n : Nat) : List Nat := List.range' 1 n

/-- The combination lists produced by a loop `for (k = 2; k <= kmax; ++k)`
over `combination_t(raw_independent_features(), k)`, with states mapped
through the symbol vector `[1, …, n]`.  This shape appears in the
`feature_location_t` constructor (`kmax = n`) and in the per-category
generators of `feature_location_isolation_t` / `feature_location_calculation_t`. -/
def combo_lists (n kmax : Nat) : List (List Nat) :=
  (List.range' 2 (kmax - 1)).flatMap
    (fun k => (combination_all n k).map
      (fun st => st.map (fun e => (raw_independent_features n).getD e 0)))

/-- `m_raw_dependent_features` of `feature_location_t`: every combination of
`[1, n]` of size `2 … n`, in generation order. -/
def raw_dependent_features (n : Nat) : List (List Nat) := combo_lists n n

/-- The `k`-loop of the `feature_location_t` constructor: for each remaining
`k` construct `combination_t(raw_independent_features(), k)` (which can
throw) and append all its states mapped through the symbols; the first error
aborts the construction. -/
def ctor_loop (n : Nat) : List Nat → Except String (List (List Nat))
  | [] => Except.ok []
  | k :: rest =>
    match combination_new (raw_independent_features n) k with
    | Except.error e => Except.error e
    | Except.ok cs =>
      match ctor_loop n rest with
      | Except.error e => Except.error e
      | Except.ok tail => Except.ok (cs ++ tail)

/-- The `feature_location_t` constructor (features.hpp lines 484-523) as a
fallible computation: the only throwing operation it performs is the
construction of `combination_t(raw_independent_features(), k)` for
`k = 2 … n`, which throws when `k > n`.  The result is
`m_raw_dependent_features`.  The model id is unused: no field initialiser or
loop of the constructor can throw for any model id. -/
def feature_location_ctor (n M : Nat) : Except String (List (List Nat)) :=
  ctor_loop n (List.range' 2 (n - 1))

/-- `m_S = power2(n)`. -/
def S_count (n : Nat) : Nat := power2 n

/-- `m_O`. -/
def O_count (n M : Nat) : Nat := if hasO M then sum_of_combinations n 2 else 0

/-- `m_A`. -/
def A_count (n M : Nat) : Nat := if hasA M then sum_of_combinations n 2 else 0

/-- `m_N`. -/
def N_count (n M : Nat) : Nat := if hasN M then n else 0

/-- `m_ON`. -/
def ON_count (n M : Nat) : Nat := if hasON M then sum_of_combinations n 2 else 0

/-- `m_AN`. -/
def AN_count (n M : Nat) : Nat := if hasAN M then sum_of_combinations n 2 else 0

/-- `m_I` (returned by `DF()`). -/
def DF_count (n M : Nat) : Nat :=
  O_count n M + A_count n M + N_count n M + AN_count n M + ON_count n M

/-- `m_T` (returned by `T()`). -/
def T_count (n M : Nat) : Nat := n + DF_count n M

/-- `m_D = power2(power2(n))`. -/
def D_count (n : Nat) : Nat := power2 (power2 n)

/-- `std::sort` on a vector of strings (observable result: the sorted
permutation). -/
def sortStr (l : List String) : List String :=
  List.insertionSort (fun a b => strLe a b = true) l

/-- `feature_location_t::generate_independent_features(f)`: one name per
present feature id. -/
def generate_independent_features (f : List Nat) : List String :=
  f.map independent_feature_name

/-- The doubly nested accumulation loop shared by
`feature_location_t::generate_or_features` and
`feature_location_t::generate_or_not_features`: for every id `i` of `f` and
every raw dependent combination `j` containing `i`, append `nameF j` unless
already present. -/
def dedup_name_fold (nameF : List Nat → String) (rawdep : List (List Nat))
    (f : List Nat) : List String :=
  f.foldl
    (fun acc i => rawdep.foldl
      (fun acc2 j =>
        if i ∈ j ∧ nameF j ∉ acc2 then acc2 ++ [nameF j] else acc2)
      acc)
    []

/-- `feature_location_t::generate_or_features(f)` (per-system). -/
def generate_or_features (n M : Nat) (f : List Nat) : List String :=
  if hasO M then sortStr (dedup_name_fold or_feature_name (raw_dependent_features n) f)
  else []

/-- `feature_location_t::generate_and_features(f)` (per-system): the raw
dependent combinations entirely contained in `f`. -/
def generate_and_features (n M : Nat) (f : List Nat) : List String :=
  if hasA M then
    sortStr (((raw_dependent_features n).filter
      (fun i => decide (∀ j ∈ i, j ∈ f))).map and_feature_name)
  else []

/-- `feature_location_t::generate_not_features(nf)` (per-system): one name per
absent feature id. -/
def generate_not_features (n M : Nat) (nf : List Nat) : List String :=
  if hasN M then (negate nf n).map not_feature_name else []

/-- `feature_location_t::generate_or_not_features(nf)` (per-system). -/
def generate_or_not_features (n M : Nat) (nf : List Nat) : List String :=
  if hasON M then
    sortStr (dedup_name_fold or_not_feature_name (raw_dependent_features n) (negate nf n))
  else []

/-- `feature_location_t::generate_and_not_features(nf)` (per-system). -/
def generate_and_not_features (n M : Nat) (nf : List Nat) : List String :=
  if hasAN M then
    sortStr (((raw_dependent_features n).filter
      (fun i => decide (∀ j ∈ i, j ∈ negate nf n))).map and_not_feature_name)
  else []

/-- `feature_location_t::generate_system(f)`: concatenation of the six
category generators, sorted. -/
def generate_system (n M : Nat) (f : List Nat) : List String :=
  sortStr (generate_independent_features f ++ generate_or_features n M f ++
    generate_and_features n M f ++ generate_not_features n M f ++
    generate_or_not_features n M f ++ generate_and_not_features n M f)

/-- `feature_location_t::generate_all_systems()`: one system per id
`0 … S-1`, the id's bit pattern giving the present features. -/
def generate_all_systems (n M : Nat) : List (List String) :=
  (List.range (S_count n)).map (fun s => generate_system n M (unsigned2vector s))

/-- The feature set of the system with 0-based index `p`
(`all_systems().at(p)`). -/
def systemList (n M p : Nat) : List String := (generate_all_systems n M).getD p []

/-- `feature_location_isolation_t::generate_independent_features()`
(class-level). -/
def independent_features_iso (n : Nat) : List String :=
  (raw_independent_features n).map independent_feature_name

/-- `feature_location_isolation_t::generate_or_features()` (class-level):
`k = 2 … n()` over `combination_t(raw_independent_features(), k)`, one
or-feature name per combination — the same enumeration as
`m_raw_dependent_features`. -/
def or_features_iso (n M : Nat) : List String :=
  if hasO M then (combo_lists n n).map or_feature_name else []

/-- `feature_location_isolation_t::generate_and_features()` (class-level). -/
def and_features_iso (n M : Nat) : List String :=
  if hasA M then (combo_lists n n).map and_feature_name else []

/-- `feature_location_isolation_t::generate_not_features()` (class-level). -/
def not_features_iso (n M : Nat) : List String :=
  if hasN M then (raw_independent_features n).map not_feature_name else []

/-- `feature_location_isolation_t::generate_or_not_features()` (class-level):
note the loop bound `k <= N()` (the not-feature count), not `k <= n()`. -/
def or_not_features_iso (n M : Nat) : List String :=
  if hasON M then (combo_lists n (N_count n M)).map or_not_feature_name else []

/-- `feature_location_isolation_t::generate_and_not_features()` (class-level):
loop bound `k <= N()`. -/
def and_not_features_iso (n M : Nat) : List String :=
  if hasAN M then (combo_lists n (N_count n M)).map and_not_feature_name else []

/-- `m_all_features` of `feature_location_isolation_t`: concatenation of the
six category lists, sorted. -/
def all_features_iso (n M : Nat) : List String :=
  sortStr (independent_features_iso n ++ or_features_iso n M ++ and_features_iso n M ++
    not_features_iso n M ++ or_not_features_iso n M ++ and_not_features_iso n M)

/-- `systems_difference_t` of features.hpp: intersection part and union part
of a set difference of systems, as sets of system names. -/
structure systems_difference_t where
  intersections : List String
  unions : List String
deriving DecidableEq

/-- `system_feature_difference_t` of features.hpp. -/
structure system_feature_difference_t where
  difference_id : Nat
  feature : String
  difference : systems_difference_t
deriving DecidableEq

/-- The difference computed for one feature by
`feature_location_isolation_t::generate_feature_isolations`: walking the
systems in order, a system whose feature set contains `f` is inserted into
the intersection part, the others into the union part. -/
def isolation_difference (n M : Nat) (f : String) : systems_difference_t :=
  { intersections := setOfList (((List.range (S_count n)).filter
      (fun p => decide (f ∈ systemList n M p))).map
        (fun p => system_name (p + 1)))
    unions := setOfList (((List.range (S_count n)).filter
      (fun p => decide (f ∉ systemList n M p))).map
        (fun p => system_name (p + 1))) }

/-- `feature_location_isolation_t::generate_feature_isolations()`: the
resulting `std::map` as its (already key-sorted) list of pairs;
`m_all_features` is sorted and duplicate-free, so insertion order matches map
order and nothing is dropped. -/
def generate_feature_isolations (n M : Nat) : List (String × systems_difference_t) :=
  (all_features_iso n M).map (fun f => (f, isolation_difference n M f))

/-- Digit-run parse of `std::stoull` on a character list: all the analysed
inputs are pure digit runs. -/
def parseNatChars (l : List Char) : Option Nat :=
  if l ≠ [] ∧ l.all (fun c => 48 ≤ c.toNat && c.toNat ≤ 57) then
    some (l.foldl (fun acc c => acc * 10 + (c.toNat - 48)) 0)
  else none

/-- `feature_location_differences_t::system2features(s)`: strips the leading
"S", parses the 1-based index, and returns the feature set of that system as
a `std::set`.  The C++ throws on a malformed name or an out-of-range index;
all names reaching it in the analysed code are produced by `system_name`
with an index in `[1, S]`, and the embedding returns `[]` on the unreachable
paths. -/
def system2features (systems : List (List String)) (s : String) : List String :=
  if 2 ≤ s.data.length ∧ s.data.headD ' ' = 'S' then
    match parseNatChars (s.data.drop 1) with
    | some pos => setOfList (systems.getD (pos - 1) [])
    | none => []
  else []

/-- `feature_location_differences_t::generate_difference(s)`: decode a
difference id into intersection part (set bits) and union part (clear bits)
over the `S` systems. -/
def generate_difference (S e : Nat) : systems_difference_t :=
  { intersections := setOfList (((List.range S).filter (fun p => e.testBit p)).map
      (fun p => system_name (p + 1)))
    unions := setOfList (((List.range S).filter (fun p => !e.testBit p)).map
      (fun p => system_name (p + 1))) }

/-- The fold of `feature_location_differences_t::evaluate_intersections`:
intersect the feature sets of the remaining system names (the C++ iterates
the `std::set` in sorted order and breaks early once the accumulator is
empty — the break does not change the result, the accumulator stays empty). -/
def inter_fold (sysF : String → List String) : List String → List String → List String
  | acc, [] => acc
  | acc, x :: rest =>
    if setInter acc (sysF x) = [] then setInter acc (sysF x)
    else inter_fold sysF (setInter acc (sysF x)) rest

/-- `feature_location_differences_t::evaluate_intersections(diff)`: empty
intersection part gives the empty set, otherwise fold from the first (least)
name of the set. -/
def evaluate_intersections (sysF : String → List String) (I : List String) :
    List String :=
  match I with
  | [] => []
  | x :: rest => inter_fold sysF (sysF x) rest

/-- The fold of `feature_location_differences_t::evaluate_unions`. -/
def union_fold (sysF : String → List String) : List String → List String → List String
  | acc, [] => acc
  | acc, x :: rest => union_fold sysF (setUnion acc (sysF x)) rest

/-- `feature_location_differences_t::evaluate_unions(diff)`. -/
def evaluate_unions (sysF : String → List String) (U : List String) : List String :=
  match U with
  | [] => []
  | x :: rest => union_fold sysF (sysF x) rest

/-- `feature_location_differences_t::evaluate_difference(diff)`:
intersection-part result minus union-part result. -/
def evaluate_difference (n M : Nat) (diff : systems_difference_t) : List String :=
  setDiff (evaluate_intersections (system2features (generate_all_systems n M))
      diff.intersections)
    (evaluate_unions (system2features (generate_all_systems n M)) diff.unions)

/-- `*res.begin()` on a `std::set<std::string>`: its least element, the head
of the sorted representation. -/
def first_of (res : List String) : String := res.headD ""

/-- The loop body of
`feature_location_differences_t::generate_non_empty_differences`, over the
remaining difference ids: keep ids whose evaluation has size 1, throw
`std::length_error` on size > 1, skip empty results. -/
def non_empty_differences_loop (n M : Nat) :
    List Nat → Except String (List system_feature_difference_t)
  | [] => Except.ok []
  | e :: rest =>
    if 0 < (evaluate_difference n M (generate_difference (S_count n) e)).length then
      if (evaluate_difference n M (generate_difference (S_count n) e)).length ≠ 1 then
        Except.error ("Set size = "
          ++ toString (evaluate_difference n M (generate_difference (S_count n) e)).length
          ++ ", must be 1!")
      else
        match non_empty_differences_loop n M rest with
        | Except.error msg => Except.error msg
        | Except.ok tail =>
          Except.ok (⟨e,
            first_of (evaluate_difference n M (generate_difference (S_count n) e)),
            generate_difference (S_count n) e⟩ :: tail)
    else non_empty_differences_loop n M rest

/-- `feature_location_differences_t::generate_non_empty_differences()`:
iterate the difference ids `e = 1 … D-1`. -/
def generate_non_empty_differences (n M : Nat) :
    Except String (List system_feature_difference_t) :=
  non_empty_differences_loop n M (List.range' 1 (D_count n - 1))

/-- The accumulation loop of
`feature_location_calculation_t::initialize_bitmask()`: OR of `1 << s` over
the `S` systems. -/
def systems_bitmask_raw (S : Nat) : Nat :=
  (List.range S).foldl (fun b s => b ||| ((1 <<< s) % W)) 0

/-- `feature_location_calculation_t::initialize_bitmask()`: the complement of
the OR of `1 << s` over the `S` systems (masks the non-existent systems). -/
def systems_bitmask (n : Nat) : Nat := cNot (systems_bitmask_raw (S_count n))

/-- `or_feature_value(ids, idf)` from features.hpp: OR of the values of the
member features (`idf.at(v - 1)` is in range in every reachable call). -/
def or_feature_value (ids : List Nat) (idf : List (String × Nat)) : Nat :=
  ids.foldl (fun acc v => acc ||| (idf.getD (v - 1) ("", 0)).2) 0

/-- `and_feature_value(ids, idf)` from features.hpp: AND of the member values,
starting from `~0ull`. -/
def and_feature_value (ids : List Nat) (idf : List (String × Nat)) : Nat :=
  ids.foldl (fun acc v => acc &&& (idf.getD (v - 1) ("", 0)).2) (W - 1)

/-- `or_not_feature_value(ids, nf)` from features.hpp. -/
def or_not_feature_value (ids : List Nat) (nf : List (String × Nat)) : Nat :=
  ids.foldl (fun acc v => acc ||| (nf.getD (v - 1) ("", 0)).2) 0

/-- `and_not_feature_value(ids, nf, bitmask)` from features.hpp: AND of the
member not-values, starting from `~bitmask`. -/
def and_not_feature_value (ids : List Nat) (nf : List (String × Nat)) (bitmask : Nat) :
    Nat :=
  ids.foldl (fun acc v => acc &&& (nf.getD (v - 1) ("", 0)).2) (cNot bitmask)

/-- One step of the bit-building loop of
`feature_location_calculation_t::calculate_independent_features`: state is
`(value, bit, counter)`; `value |= bit; --counter; value <<= 1;` and when the
counter hits zero the bit flips and the counter restarts at the stride. -/
def calc_ind_step (stride : Nat) (st : Nat × Nat × Nat) : Nat × Nat × Nat :=
  let value := st.1 ||| st.2.1
  let counter := st.2.2 - 1
  let value2 := (value <<< 1) % W
  if counter = 0 then (value2, if st.2.1 = 1 then 0 else 1, stride)
  else (value2, st.2.1, counter)

/-- `feature_location_calculation_t::calculate_independent_features()`: for
the 0-based feature index `f`, run the loop over `s = 0 … power2(n) - 2` with
stride `power2(f)`, starting from `(0, 1, power2(f))`. -/
def calculate_independent_features (n : Nat) : List (String × Nat) :=
  (List.range n).map (fun f =>
    (independent_feature_name (f + 1),
      ((List.range (power2 n - 1)).foldl
        (fun st _ => calc_ind_step (power2 f) st) (0, 1, power2 f)).1))

/-- The per-combination pair list of
`feature_location_calculation_t::calculate_or_features` (the body of its
`hasO` branch). -/
def calc_or_pairs (n : Nat) : List (String × Nat) :=
  (combo_lists n n).map
    (fun c => (or_feature_name c, or_feature_value c (calculate_independent_features n)))

/-- `feature_location_calculation_t::calculate_or_features()`. -/
def calculate_or_features (n M : Nat) : List (String × Nat) :=
  if hasO M then calc_or_pairs n else []

/-- The body of the `hasA` branch of
`feature_location_calculation_t::calculate_and_features`. -/
def calc_and_pairs (n : Nat) : List (String × Nat) :=
  (combo_lists n n).map
    (fun c => (and_feature_name c, and_feature_value c (calculate_independent_features n)))

/-- `feature_location_calculation_t::calculate_and_features()`. -/
def calculate_and_features (n M : Nat) : List (String × Nat) :=
  if hasA M then calc_and_pairs n else []

/-- The body of the `hasN` branch of
`feature_location_calculation_t::calculate_not_features`: the name is built
as `feature_not + f.first` (see the source comment), the value is
`~(f.second ^ systems_bitmask())`. -/
def calc_not_pairs (n : Nat) : List (String × Nat) :=
  (calculate_independent_features n).map
    (fun pr => (feature_not ++ pr.1, cNot (pr.2 ^^^ systems_bitmask n)))

/-- `feature_location_calculation_t::calculate_not_features()`. -/
def calculate_not_features (n M : Nat) : List (String × Nat) :=
  if hasN M then calc_not_pairs n else []

/-- `feature_location_calculation_t::calculate_or_not_features()`: note the
loop bound `k <= n()` here (not `k <= N()`). -/
def calculate_or_not_features (n M : Nat) : List (String × Nat) :=
  if hasON M then
    (combo_lists n n).map
      (fun c => (or_not_feature_name c, or_not_feature_value c (calculate_not_features n M)))
  else []

/-- `feature_location_calculation_t::calculate_and_not_features()`. -/
def calculate_and_not_features (n M : Nat) : List (String × Nat) :=
  if hasAN M then
    (combo_lists n n).map
      (fun c => (and_not_feature_name c,
        and_not_feature_value c (calculate_not_features n M) (systems_bitmask n)))
  else []

/-- `m_all_features` of `feature_location_calculation_t` (concatenated,
unsorted). -/
def calc_all_features (n M : Nat) : List (String × Nat) :=
  calculate_independent_features n ++ calculate_or_features n M ++
  calculate_and_features n M ++ calculate_not_features n M ++
  calculate_or_not_features n M ++ calculate_and_not_features n M

/-- `feature_location_calculation_t::calculate_difference(index, name)`:
decode the value's bits into intersection part and union part. -/
def calculate_difference (S index : Nat) (name : String) : system_feature_difference_t :=
  { difference_id := index
    feature := name
    difference :=
      { intersections := setOfList (((List.range S).filter
          (fun s => index.testBit s)).map (fun s => system_name (s + 1)))
        unions := setOfList (((List.range S).filter
          (fun s => !index.testBit s)).map (fun s => system_name (s + 1))) } }

/-- `feature_location_calculation_t::calculate_differences()`: one difference
per feature value, sorted by difference id (`std::sort` with a strict
comparator; the ids are distinct in every analysed configuration, so the
sorted permutation is the observable result). -/
def calculate_differences (n M : Nat) : List system_feature_difference_t :=
  List.insertionSort (fun a b => a.difference_id ≤ b.difference_id)
    ((calc_all_features n M).map (fun pr => calculate_difference (S_count n) pr.2 pr.1))

/-- `ceil_div(x, y)` from fl.cpp: `x / y + !!(x % y)`. -/
def ceil_div (x y : Nat) : Nat := x / y + (if x % y ≠ 0 then 1 else 0)

/-- One iteration of `difference_expression_generator::operator()(f)` from
fl.cpp: push the current bit; the bit flips every `stride` pushes. -/
def dg_step (stride : Nat) (st : List Bool × Bool × Nat) : List Bool × Bool × Nat :=
  let bits := st.1 ++ [st.2.1]
  let counter := st.2.2 + 1
  if counter = stride then (bits, !st.2.1, 0) else (bits, st.2.1, counter)

/-- `difference_expression_generator::operator()(f)` from fl.cpp: the
difference expression of independent feature `f` (1-based) as a bit vector
indexed by system (entry `s - 1` belongs to system `s`), built with stride
`power(2, f - 1)` starting from bit `false`. -/
def dg_bitstring (F f : Nat) : List Bool :=
  ((List.range (power 2 F)).foldl (fun st _ => dg_step (power 2 (f - 1)) st)
    ([], false, 0)).1

/-- `difference_expression_generator::operator()(f, s)` from fl.cpp: the
closed-form per-system value `!(ceil_div(s, stride) % 2)` for 1-based
system `s`. -/
def dg_bit (F f s : Nat) : Bool := ceil_div s (power 2 (f - 1)) % 2 == 0

/-- `operator~` on `difference_expression_t` from fl.cpp: negate every
element, preserving the vector. -/
def de_neg (de : List Bool) : List Bool := de.map (fun b => !b)

/-- `operator&=` on `difference_expression_t` from fl.cpp (defined for equal
lengths; the C++ throws `std::length_error` otherwise). -/
def de_and (left right : List Bool) : List Bool :=
  (left.zip right).map (fun pr => pr.1 && pr.2)

/-- `operator|=` on `difference_expression_t` from fl.cpp. -/
def de_or (left right : List Bool) : List Bool :=
  (left.zip right).map (fun pr => pr.1 || pr.2)

/-- `operator<<` on `difference_expression_t` from fl.cpp: the bits from the
highest index down to index 0, '1' for true and '0' for false. -/
def de_string (de : List Bool) : String :=
  String.join (de.reverse.map (fun b => if b then "1" else "0"))

/-- `print_independent_features(dg)` from fl.cpp, as the list of lines it
writes: `'f' << f << '\t' << dg(f) << endl` for `f = 1 … F`. -/
def print_independent_features (F : Nat) : List String :=
  (List.range' 1 F).map (fun f => feature ++ toString f ++ separator ++
    de_string (dg_bitstring F f))

/-- `print_independent_features_alt(dg)` from fl.cpp, as the list of lines it
writes: per feature it prints `dg(f, s)` for `s = S, S-1, …, 2` (the loop
condition is `s > 1`). -/
def print_independent_features_alt (F : Nat) : List String :=
  (List.range' 1 F).map (fun f => feature ++ toString f ++ separator ++
    String.join (((List.range' 2 (power 2 F - 1)).reverse).map
      (fun s => if dg_bit F f s then "1" else "0")))

/-!
## Analysis-side definitions

Everything below this point is not an embedding of source code but
vocabulary for reasoning about it: membership bit masks of features,
the feature catalog, validity of combination states, and executable
helpers used to discharge finite side conditions by evaluation.
-/

/-- Valid internal state of a `combination_t` over `n` symbols: strictly
increasing indices below `n`. -/
def ValidState (n : Nat) (s : List Nat) : Prop :=
  List.Chain' (· < ·) s ∧ ∀ x ∈ s, x < n

/-- The number whose binary digits below `S` are given by `pred` (bit `p` is
`pred p`). -/
def bitsum : Nat → (Nat → Bool) → Nat
  | 0, _ => 0
  | S + 1, pred => (if pred 0 then 1 else 0) + 2 * bitsum S (fun p => pred (p + 1))

/-- Membership mask of independent feature `i` over the `2 ^ n` systems:
bit `p` iff system index `p` has feature `i` present. -/
def ind_mask (n i : Nat) : Nat := bitsum (2 ^ n) (fun p => p.testBit (i - 1))

/-- Membership mask of the or-feature over ids `c`. -/
def or_mask (n : Nat) (c : List Nat) : Nat :=
  bitsum (2 ^ n) (fun p => c.any (fun i => p.testBit (i - 1)))

/-- Membership mask of the and-feature over ids `c`. -/
def and_mask (n : Nat) (c : List Nat) : Nat :=
  bitsum (2 ^ n) (fun p => c.all (fun i => p.testBit (i - 1)))

/-- Membership mask of the not-feature of id `i`. -/
def not_mask (n i : Nat) : Nat := bitsum (2 ^ n) (fun p => !p.testBit (i - 1))

/-- Membership mask of the or-not-feature over ids `c`. -/
def orn_mask (n : Nat) (c : List Nat) : Nat :=
  bitsum (2 ^ n) (fun p => c.any (fun i => !p.testBit (i - 1)))

/-- Membership mask of the and-not-feature over ids `c`. -/
def andn_mask (n : Nat) (c : List Nat) : Nat :=
  bitsum (2 ^ n) (fun p => c.all (fun i => !p.testBit (i - 1)))

/-- Catalog of independent features: name and membership mask. -/
def catalog_ind (n : Nat) : List (String × Nat) :=
  (List.range' 1 n).map (fun i => (independent_feature_name i, ind_mask n i))

/-- Catalog of or-features over all raw dependent combinations. -/
def catalog_or (n : Nat) : List (String × Nat) :=
  (raw_dependent_features n).map (fun c => (or_feature_name c, or_mask n c))

/-- Catalog of and-features. -/
def catalog_and (n : Nat) : List (String × Nat) :=
  (raw_dependent_features n).map (fun c => (and_feature_name c, and_mask n c))

/-- Catalog of not-features. -/
def catalog_not (n : Nat) : List (String × Nat) :=
  (List.range' 1 n).map (fun i => (not_feature_name i, not_mask n i))

/-- Catalog of or-not-features. -/
def catalog_orn (n : Nat) : List (String × Nat) :=
  (raw_dependent_features n).map (fun c => (or_not_feature_name c, orn_mask n c))

/-- Catalog of and-not-features. -/
def catalog_andn (n : Nat) : List (String × Nat) :=
  (raw_dependent_features n).map (fun c => (and_not_feature_name c, andn_mask n c))

/-- The full feature catalog for `n` independent features, all five dependent
categories included (model gating ignored). -/
def catalog (n : Nat) : List (String × Nat) :=
  catalog_ind n ++ catalog_or n ++ catalog_and n ++ catalog_not n ++
  catalog_orn n ++ catalog_andn n

/-- The catalog restricted to the categories active in model `M`, in the
concatenation order of `m_all_features`.  The or-not and and-not entries of
`feature_location_isolation_t` are generated by a loop bounded by the
not-feature count `N()`, hence the `hasN` conjunct. -/
def catalog_active (n M : Nat) : List (String × Nat) :=
  catalog_ind n ++ (if hasO M then catalog_or n else []) ++
  (if hasA M then catalog_and n else []) ++
  (if hasN M then catalog_not n else []) ++
  (if hasON M && hasN M then catalog_orn n else []) ++
  (if hasAN M && hasN M then catalog_andn n else [])

/-- Membership mask of an arbitrary feature name over the materialised
systems: bit `p` iff the name occurs in `all_systems().at(p)`. -/
def maskOf (n M : Nat) (g : String) : Nat :=
  bitsum (S_count n) (fun p => decide (g ∈ systemList n M p))

/-- The entry that `generate_non_empty_differences` keeps for id `e`: the
triple of `e`, the sole member of the evaluation, and the decoded difference,
when the evaluation is a singleton; nothing otherwise. -/
def kept_entry (n M e : Nat) : Option system_feature_difference_t :=
  if (evaluate_difference n M (generate_difference (S_count n) e)).length = 1 then
    some ⟨e, first_of (evaluate_difference n M (generate_difference (S_count n) e)),
      generate_difference (S_count n) e⟩
  else none

/-- The list of differences that `generate_non_empty_differences` keeps when
no evaluation result has size above 1: the ids `e` in `[1, D-1]` whose
evaluation is a singleton, with the isolated feature name. -/
def kept_differences (n M : Nat) : List system_feature_difference_t :=
  (List.range' 1 (D_count n - 1)).filterMap (kept_entry n M)

/-- The (feature, difference) pair of an identified difference. -/
def feature_pair (t : system_feature_difference_t) : String × systems_difference_t :=
  (t.feature, t.difference)

/-- The or-not pair list of `feature_location_calculation_t` with the
not-feature pairs passed ungated (equal to the `hasON` branch of
`calculate_or_not_features` whenever `hasN` holds). -/
def calc_orn_pairs (n : Nat) : List (String × Nat) :=
  (combo_lists n n).map
    (fun c => (or_not_feature_name c, or_not_feature_value c (calc_not_pairs n)))

/-- The and-not analogue of `calc_orn_pairs`. -/
def calc_andn_pairs (n : Nat) : List (String × Nat) :=
  (combo_lists n n).map
    (fun c => (and_not_feature_name c,
      and_not_feature_value c (calc_not_pairs n) (systems_bitmask n)))

/-- Character codes of a string, for fast evaluated comparisons. -/
def strCode (s : String) : List Nat := s.data.map Char.toNat

/-- A string packed into one number (char codes as base-2^32 digits), so that
string distinctness can be checked by numeric comparison. -/
def strKey (s : String) : Nat := s.data.foldl (fun acc c => acc * 2 ^ 32 + c.toNat) 0

/-- Structural equality of two `List Nat`, as an executable `Bool`. -/
def eqLN : List Nat → List Nat → Bool
  | [], [] => true
  | a :: l, b :: m => a.beq b && eqLN l m
  | _, _ => false

/-- Executable membership of a `List Nat` in a list of them. -/
def memLN (x : List Nat) : List (List Nat) → Bool
  | [] => false
  | y :: l => eqLN x y || memLN x l

/-- Executable duplicate-freedom of a list of `List Nat`. -/
def nodupLN : List (List Nat) → Bool
  | [] => true
  | x :: l => !memLN x l && nodupLN l

/-- Executable membership of a `Nat` in a list. -/
def memN (x : Nat) : List Nat → Bool
  | [] => false
  | y :: l => x.beq y || memN x l

/-- Executable duplicate-freedom of a list of `Nat`. -/
def nodupN : List Nat → Bool
  | [] => true
  | x :: l => !memN x l && nodupN l

/-- Executable side condition: the names of the full catalog of `n` are
pairwise distinct. -/
def namesOK (n : Nat) : Bool := nodupN ((catalog n).map (fun pr => strKey pr.1))

/-- Executable side condition: the membership masks of the full catalog of
`n` are pairwise distinct and in `[1, 2 ^ 2 ^ n)`. -/
def masksOK (n : Nat) : Bool :=
  nodupN ((catalog n).map Prod.snd) && (catalog n).all (fun pr => !pr.2.beq 0)

/-- The five category predicates of a model, as one tuple. -/
def model_profile (M : Nat) : Bool × Bool × Bool × Bool × Bool :=
  (hasO M, hasA M, hasN M, hasON M, hasAN M)

/-- Strictly sorted list of strings: the invariant of the `std::set` model. -/
def SortedS (l : List String) : Prop :=
  List.Pairwise (fun a b => strLt a b = true) l

/-!
## Correctness of the executable helpers
-/

theorem eqLN_iff (a : List Nat) : ∀ b, eqLN a b = true ↔ a = b := by
  induction a with
  | nil => intro b; cases b <;> simp [eqLN]
  | cons x l ih =>
    intro b
    cases b with
    | nil => simp [eqLN]
    | cons y m => simp only [eqLN, Bool.and_eq_true, Nat.beq_eq, ih, List.cons.injEq]

theorem memLN_iff (x : List Nat) : ∀ l, memLN x l = true ↔ x ∈ l := by
  intro l
  induction l with
  | nil => simp [memLN]
  | cons y m ih => simp only [memLN, Bool.or_eq_true, eqLN_iff, ih, List.mem_cons]

theorem nodupLN_nodup : ∀ l, nodupLN l = true → l.Nodup := by
  intro l
  induction l with
  | nil => simp
  | cons x m ih =>
    intro h
    simp only [nodupLN, Bool.and_eq_true, Bool.not_eq_true'] at h
    refine List.nodup_cons.mpr ⟨fun hmem => ?_, ih h.2⟩
    rw [(memLN_iff x m).mpr hmem] at h
    exact Bool.true_eq_false.mp h.1

theorem memN_iff (x : Nat) : ∀ l, memN x l = true ↔ x ∈ l := by
  intro l
  induction l with
  | nil => simp [memN]
  | cons y m ih => simp only [memN, Bool.or_eq_true, Nat.beq_eq, ih, List.mem_cons]

theorem nodupN_nodup : ∀ l, nodupN l = true → l.Nodup := by
  intro l
  induction l with
  | nil => simp
  | cons x m ih =>
    intro h
    simp only [nodupN, Bool.and_eq_true, Bool.not_eq_true'] at h
    refine List.nodup_cons.mpr ⟨fun hmem => ?_, ih h.2⟩
    rw [(memN_iff x m).mpr hmem] at h
    exact Bool.true_eq_false.mp h.1

/-!
## Arithmetic facts about the embedded 64-bit helpers
-/

theorem one_lt_W : 1 < W := by norm_num [W]

theorem power_eq (b e : Nat) : power b e = b ^ e % W := by
  induction e with
  | zero => simp [power, Nat.mod_eq_of_lt one_lt_W]
  | succ e ih => rw [power, ih, Nat.mod_mul_mod, Nat.pow_succ]

theorem power2_eq {e : Nat} (h : e ≤ 63) : power2 e = 2 ^ e := by
  rw [power2, power_eq]
  exact Nat.mod_eq_of_lt (Nat.pow_lt_pow_right one_lt_two (by omega))

theorem S_count_eq {n : Nat} (h : n ≤ 63) : S_count n = 2 ^ n := power2_eq h

theorem D_count_eq {n : Nat} (h : n ≤ 5) : D_count n = 2 ^ 2 ^ n := by
  have hn : power2 n = 2 ^ n := power2_eq (by omega)
  have h2 : 2 ^ n ≤ 63 := le_trans (Nat.pow_le_pow_right (by norm_num) h) (by norm_num)
  rw [D_count, hn, power2_eq h2]

theorem cNot_cNot (x : Nat) : cNot (cNot x) = x := by
  simp [cNot, Nat.xor_assoc]

theorem cNot_xor_cNot (x m : Nat) : cNot (x ^^^ cNot m) = x ^^^ m := by
  simp [cNot, Nat.xor_assoc]

theorem or_two_pow_sub_one (S : Nat) : (2 ^ S - 1) ||| 2 ^ S = 2 ^ (S + 1) - 1 := by
  apply Nat.eq_of_testBit_eq
  intro i
  rw [Nat.testBit_or, Nat.testBit_two_pow_sub_one, Nat.testBit_two_pow_sub_one,
    Nat.testBit_two_pow]
  rcases Nat.lt_trichotomy i S with h | h | h
  · simp [h, Nat.lt_succ_of_lt h, Nat.ne_of_gt h]
  · simp [h, Nat.lt_succ_self]
  · have h1 : ¬ i < S + 1 := by omega
    simp [Nat.lt_asymm h, Nat.ne_of_lt h, h1]

theorem systems_bitmask_raw_eq : ∀ {S : Nat}, S ≤ 64 → systems_bitmask_raw S = 2 ^ S - 1 := by
  intro S
  induction S with
  | zero => intro _; rfl
  | succ S ih =>
    intro h
    have hs : systems_bitmask_raw (S + 1)
        = systems_bitmask_raw S ||| ((1 <<< S) % W) := by
      rw [systems_bitmask_raw, systems_bitmask_raw, List.range_succ, List.foldl_append]
      rfl
    have hW : (1 <<< S) % W = 2 ^ S := by
      rw [Nat.shiftLeft_eq, one_mul]
      exact Nat.mod_eq_of_lt (Nat.pow_lt_pow_right one_lt_two (by omega))
    rw [hs, ih (by omega), hW, or_two_pow_sub_one]

theorem systems_bitmask_eq {n : Nat} (h : n ≤ 6) :
    systems_bitmask n = cNot (2 ^ S_count n - 1) := by
  have hS : S_count n = 2 ^ n := S_count_eq (by omega)
  have h64 : S_count n ≤ 64 := by
    rw [hS]
    calc 2 ^ n ≤ 2 ^ 6 := Nat.pow_le_pow_right (by norm_num) h
    _ = 64 := by norm_num
  rw [systems_bitmask, systems_bitmask_raw_eq h64]

theorem de_neg_de_neg (de : List Bool) : de_neg (de_neg de) = de := by
  simp [de_neg, List.map_map, Function.comp_def]

theorem de_neg_length (de : List Bool) : (de_neg de).length = de.length := by
  simp [de_neg]

/-!
## C10 — model catalog invariants
-/

/-- C10: for every model id in 1..19, or-not features imply not-features and
and-not features imply not-features, and the 19 five-predicate tuples are
pairwise distinct. -/
theorem hasON_hasAN_imp_hasN_and_profiles_distinct :
    ∀ M, 1 ≤ M → M ≤ 19 →
      ((hasON M = true → hasN M = true) ∧ (hasAN M = true → hasN M = true)) ∧
      (∀ M', 1 ≤ M' → M' ≤ 19 → model_profile M = model_profile M' → M = M') := by
  have h : ∀ M ∈ List.range' 1 19,
      ((hasON M = true → hasN M = true) ∧ (hasAN M = true → hasN M = true)) ∧
      (∀ M' ∈ List.range' 1 19, model_profile M = model_profile M' → M = M') := by decide
  intro M h1 h2
  have hmem : ∀ x : Nat, 1 ≤ x → x ≤ 19 → x ∈ List.range' 1 19 := by
    intro x hx1 hx2
    rw [List.mem_range']
    exact ⟨x - 1, by omega, by omega⟩
  exact ⟨(h M (hmem M h1 h2)).1,
    fun M' h1' h2' => (h M (hmem M h1 h2)).2 M' (hmem M' h1' h2')⟩

/-- Witness for C10 at the concrete model ids 9 and 10. -/
theorem hasON_hasAN_imp_hasN_witness :
    (((hasON 9 = true → hasN 9 = true) ∧ (hasAN 9 = true → hasN 9 = true)) ∧
      (∀ M', 1 ≤ M' → M' ≤ 19 → model_profile 9 = model_profile M' → 9 = M')) ∧
    (((hasON 10 = true → hasN 10 = true) ∧ (hasAN 10 = true → hasN 10 = true)) ∧
      (∀ M', 1 ≤ M' → M' ≤ 19 → model_profile 10 = model_profile M' → 10 = M')) :=
  ⟨hasON_hasAN_imp_hasN_and_profiles_distinct 9 (by decide) (by decide),
   hasON_hasAN_imp_hasN_and_profiles_distinct 10 (by decide) (by decide)⟩

/-!
## C9 — complementation is involutive
-/

/-- C9: over the `S = 2 ^ n` low bit positions, the not-bitmask transform
`v ↦ ~(v ^ systems_bitmask)` of the closed-form strategy is involutive and
stays inside the `S` low bits; the `operator~` of fl.cpp applied twice is the
identity and preserves the length. -/
theorem not_transform_involutive :
    ∀ (n v : Nat) (de : List Bool), n ≤ 6 → v < 2 ^ S_count n →
      (cNot (cNot (v ^^^ systems_bitmask n) ^^^ systems_bitmask n) = v ∧
        cNot (v ^^^ systems_bitmask n) < 2 ^ S_count n) ∧
      (de_neg (de_neg de) = de ∧ (de_neg de).length = de.length) := by
  intro n v de h6 hv
  have hmask : systems_bitmask n = cNot (2 ^ S_count n - 1) := systems_bitmask_eq h6
  have htrans : ∀ x : Nat, cNot (x ^^^ systems_bitmask n) = x ^^^ (2 ^ S_count n - 1) := by
    intro x
    rw [hmask, cNot_xor_cNot]
  constructor
  · constructor
    · rw [htrans, htrans, Nat.xor_assoc, Nat.xor_self, Nat.xor_zero]
    · rw [htrans]
      exact Nat.xor_lt_two_pow hv (by exact Nat.sub_lt (Nat.pos_pow_of_pos _ (by norm_num)) one_pos)
  · exact ⟨de_neg_de_neg de, de_neg_length de⟩

/-- Witness for C9 at `n = 2`, `v = 5`, `de = [true, false]`. -/
theorem not_transform_involutive_witness :
    (cNot (cNot (5 ^^^ systems_bitmask 2) ^^^ systems_bitmask 2) = 5 ∧
      cNot (5 ^^^ systems_bitmask 2) < 2 ^ S_count 2) ∧
    (de_neg (de_neg [true, false]) = [true, false] ∧
      (de_neg [true, false]).length = [true, false].length) :=
  not_transform_involutive 2 5 [true, false] (by decide) (by decide)

/-!
## C4 — taxonomy construction never throws
-/

theorem ctor_loop_ok :
    ∀ (n : Nat) (l : List Nat),
      (∀ k ∈ l, k ≤ n) →
      ctor_loop n l
      = Except.ok (l.flatMap
          (fun k => (combination_all n k).map
            (fun st => st.map (fun e => (raw_independent_features n).getD e 0)))) := by
  intro n l
  induction l with
  | nil => intro _; rfl
  | cons k rest ih =>
    intro h
    have hk : ¬ k > (raw_independent_features n).length := by
      rw [raw_independent_features, List.length_range']
      exact not_lt.mpr (h k (List.mem_cons_self k rest))
    rw [ctor_loop, combination_new, if_neg hk,
      ih (fun x hx => h x (List.mem_cons_of_mem _ hx))]
    rw [raw_independent_features, List.length_range']
    simp [raw_independent_features]

/-- C4 (amended): the `feature_location_t` constructor performs no input
validation and never throws — for every feature count (including 0) and every
model id (including ids outside 1..19) it succeeds and produces the raw
dependent feature combinations; the only throwing operation it contains,
`combination_t` construction with `k > n`, is unreachable because the loop
runs `k = 2 … n`. -/
theorem feature_location_ctor_total :
    ∀ n M : Nat, feature_location_ctor n M = Except.ok (raw_dependent_features n) := by
  intro n M
  rw [feature_location_ctor,
    ctor_loop_ok n (List.range' 2 (n - 1))
      (fun k hk => by
        rw [List.mem_range'] at hk
        obtain ⟨i, hi, hk⟩ := hk
        omega)]
  rfl

/-- Counterexample to C4 as stated: with `F = 0` (and with a model id far
outside 1..19) construction succeeds instead of failing with a domain
error. -/
theorem feature_location_ctor_no_domain_error :
    feature_location_ctor 0 5 = Except.ok [] ∧
    feature_location_ctor 3 25 = Except.ok (raw_dependent_features 3) := by
  constructor
  · rfl
  · rfl

/-!
## C5 — the concrete scenario F = 2, model 8
-/

/-- Counterexample to C5 as stated: the total feature count at `F = 2`,
model 8 is not 5 (the scenario has 2 independent + 1 or + 1 and + 2 not
features, which already sums to 6). -/
theorem T_count_F2_M8_ne_five : T_count 2 8 ≠ 5 := by decide

/-- C5 (amended, T = 6): for `F = 2`, model 8 the catalog gives
`hasO, hasA, hasN` true and `hasON, hasAN` false; `S = 4`; the independent
features are `f1, f2`, the single or-feature is `"f1 + f2"`, the single
and-feature is `"f1 * f2"`, the not-features are `"!f1", "!f2"`; the total
feature count is `T = 6`; system 0 has defining feature set `{!f1, !f2}` and
system 3 (bitmask 0b11) has defining feature set
`{f1, f2, f1 + f2, f1 * f2}`. -/
theorem scenario_F2_M8 :
    (hasO 8, hasA 8, hasN 8, hasON 8, hasAN 8) = (true, true, true, false, false) ∧
    S_count 2 = 4 ∧
    independent_features_iso 2 = ["f1", "f2"] ∧
    or_features_iso 2 8 = ["f1 + f2"] ∧
    and_features_iso 2 8 = ["f1 * f2"] ∧
    not_features_iso 2 8 = ["!f1", "!f2"] ∧
    T_count 2 8 = 6 ∧
    systemList 2 8 0 = ["!f1", "!f2"] ∧
    systemList 2 8 3 = ["f1", "f1 * f2", "f1 + f2", "f2"] ∧
    setOfList (systemList 2 8 3) = setOfList ["f1", "f2", "f1 + f2", "f1 * f2"] := by
  decide

/-!
## C6 — the closed-form bitstring of f2 at F = 3
-/

/-- Counterexample to C6 as stated: reading fl.cpp's bitstring for feature 2
at `F = 3` from system 1 to system 8 does not give `01100110` (systems 2, 3,
6, 7), and system 2 is not marked — its closed-form bit is `false`. -/
theorem dg_bitstring_F3_f2_not_claimed :
    dg_bitstring 3 2 ≠ [false, true, true, false, false, true, true, false] ∧
    dg_bit 3 2 2 = false := by decide

/-- C6 (amended): at `F = 3` the bitstring of independent feature `f2` has
stride `2^(2-1) = 2`; read from system 1 to system 8 it is `00110011`
(entry `s - 1` is the bit of system `s`), so exactly systems 3, 4, 7, 8 are
marked; the per-system closed form `!(ceil(s / stride) % 2)` produces the
same bits, the enumeration strategy's membership sets for `F = 3`, model 19
mark the same systems, and `calculate_independent_features` packs the same
bits into the value `204 = 0b11001100`. -/
theorem dg_bitstring_F3_f2 :
    dg_bitstring 3 2 = [false, false, true, true, false, false, true, true] ∧
    (List.range' 1 8).map (fun s => dg_bit 3 2 s)
      = [false, false, true, true, false, false, true, true] ∧
    (List.range 8).map (fun p => decide ("f2" ∈ systemList 3 19 p))
      = [false, false, true, true, false, false, true, true] ∧
    (calculate_independent_features 3).getD 1 ("", 0) = ("f2", 204) := by decide

/-!
## C7 — the two independent-feature printers
-/

/-- C7 (code bug): at the failing input `F = 1` (`S = 2`),
`print_independent_features` writes the line `f1<tab>10` — the feature name,
a tab, and all `S = 2` bits MSB first — while `print_independent_features_alt`
writes `f1<tab>1`: its loop `for (s = S; s > 1; --s)` stops before `s = 1`
and drops the bit of system 1, so the files differ and the alt printer emits
only `S - 1` bits per feature. -/
theorem print_alt_drops_system_one_bit :
    print_independent_features 1 = ["f1\t10"] ∧
    print_independent_features_alt 1 = ["f1\t1"] ∧
    print_independent_features 1 ≠ print_independent_features_alt 1 := by decide

/-!
## C3 — structure of the exhaustive ID search
-/

theorem loop_cons_skip (n M e : Nat) (rest : List Nat)
    (h : (evaluate_difference n M (generate_difference (S_count n) e)).length = 0) :
    non_empty_differences_loop n M (e :: rest) = non_empty_differences_loop n M rest := by
  rw [non_empty_differences_loop, if_neg (by omega)]

theorem loop_cons_throw (n M e : Nat) (rest : List Nat)
    (h : 1 < (evaluate_difference n M (generate_difference (S_count n) e)).length) :
    non_empty_differences_loop n M (e :: rest)
      = Except.error ("Set size = "
          ++ toString (evaluate_difference n M (generate_difference (S_count n) e)).length
          ++ ", must be 1!") := by
  rw [non_empty_differences_loop, if_pos (by omega), if_pos (by omega)]

theorem loop_cons_keep (n M e : Nat) (rest : List Nat)
    (h : (evaluate_difference n M (generate_difference (S_count n) e)).length = 1) :
    non_empty_differences_loop n M (e :: rest)
      = match non_empty_differences_loop n M rest with
        | Except.error msg => Except.error msg
        | Except.ok tail =>
          Except.ok (⟨e,
            first_of (evaluate_difference n M (generate_difference (S_count n) e)),
            generate_difference (S_count n) e⟩ :: tail) := by
  rw [non_empty_differences_loop, if_pos (by omega), if_neg (by omega)]

theorem non_empty_differences_loop_spec :
    ∀ (n M : Nat) (l : List Nat),
      ((∃ L, non_empty_differences_loop n M l = Except.ok L) ↔
        ∀ e ∈ l, (evaluate_difference n M (generate_difference (S_count n) e)).length ≤ 1) ∧
      (∀ L, non_empty_differences_loop n M l = Except.ok L →
        L = l.filterMap (kept_entry n M)) := by
  intro n M l
  induction l with
  | nil =>
    refine ⟨⟨fun _ => by simp, fun _ => ⟨[], rfl⟩⟩, ?_⟩
    intro L hL
    rw [non_empty_differences_loop] at hL
    cases hL
    rfl
  | cons e rest ih =>
    rcases Nat.lt_trichotomy
        (evaluate_difference n M (generate_difference (S_count n) e)).length 1 with
      h0 | h1 | h2
    · have hz : (evaluate_difference n M
          (generate_difference (S_count n) e)).length = 0 := by omega
      have hstep := loop_cons_skip n M e rest hz
      constructor
      · rw [hstep]
        constructor
        · intro h x hx
          rcases List.mem_cons.mp hx with rfl | hx
          · omega
          · exact ih.1.mp h x hx
        · intro h
          exact ih.1.mpr (fun x hx => h x (List.mem_cons_of_mem _ hx))
      · intro L hL
        rw [hstep] at hL
        rw [List.filterMap_cons, kept_entry, if_neg (by omega)]
        exact ih.2 L hL
    · have hstep := loop_cons_keep n M e rest h1
      constructor
      · constructor
        · rintro ⟨L, hL⟩
          rw [hstep] at hL
          intro x hx
          rcases List.mem_cons.mp hx with rfl | hx
          · omega
          · rcases hrest : non_empty_differences_loop n M rest with msg | tail
            · rw [hrest] at hL; cases hL
            · exact ih.1.mp ⟨tail, hrest⟩ x hx
        · intro h
          obtain ⟨tail, htail⟩ := ih.1.mpr (fun x hx => h x (List.mem_cons_of_mem _ hx))
          exact ⟨_, by rw [hstep, htail]⟩
      · intro L hL
        rw [hstep] at hL
        rcases hrest : non_empty_differences_loop n M rest with msg | tail
        · rw [hrest] at hL; cases hL
        · rw [hrest] at hL
          cases hL
          rw [List.filterMap_cons, kept_entry, if_pos h1]
          rw [ih.2 tail hrest]
    · have hstep := loop_cons_throw n M e rest h2
      constructor
      · constructor
        · rintro ⟨L, hL⟩
          rw [hstep] at hL
          cases hL
        · intro h
          have := h e (List.mem_cons_self e rest)
          omega
      · intro L hL
        rw [hstep] at hL
        cases hL

/-- C3: `generate_non_empty_differences` iterates the ids `e = 1 … D-1`; it
returns normally iff no evaluation result has size above 1, in which case
the returned list keeps exactly the triples `(e, feature, difference)` whose
evaluation is a singleton (the sole member being the recorded feature name),
silently skipping ids with empty evaluation; if some evaluation has size
above 1 it aborts with an error instead of continuing. -/
theorem exhaustive_search_keeps_singletons :
    ∀ n M : Nat,
      ((∃ L, generate_non_empty_differences n M = Except.ok L) ↔
        ∀ e, 1 ≤ e → e ≤ D_count n - 1 →
          (evaluate_difference n M (generate_difference (S_count n) e)).length ≤ 1) ∧
      (∀ L, generate_non_empty_differences n M = Except.ok L →
        L = kept_differences n M) := by
  intro n M
  have hmem : ∀ e : Nat, e ∈ List.range' 1 (D_count n - 1) ↔
      (1 ≤ e ∧ e ≤ D_count n - 1) := by
    intro e
    rw [List.mem_range']
    constructor
    · rintro ⟨i, hi, rfl⟩; omega
    · intro ⟨h1e, h2e⟩; exact ⟨e - 1, by omega, by omega⟩
  have h := non_empty_differences_loop_spec n M (List.range' 1 (D_count n - 1))
  constructor
  · rw [generate_non_empty_differences, h.1]
    constructor
    · intro hh e he1 he2
      exact hh e ((hmem e).mpr ⟨he1, he2⟩)
    · intro hh e he
      exact hh e ((hmem e).mp he).1 ((hmem e).mp he).2
  · intro L hL
    exact h.2 L hL

/-- Witness for C3 at `n = 1`, `M = 1`: the search over `e = 1 … 3` returns
normally and produces exactly the kept singleton differences. -/
theorem exhaustive_search_keeps_singletons_witness :
    ∃ L, generate_non_empty_differences 1 1 = Except.ok L ∧ L = kept_differences 1 1 := by
  have h := exhaustive_search_keeps_singletons 1 1
  have hok : ∀ e, 1 ≤ e → e ≤ D_count 1 - 1 →
      (evaluate_difference 1 1 (generate_difference (S_count 1) e)).length ≤ 1 := by
    intro e he1 he2
    have hD : D_count 1 = 4 := by decide
    rw [hD] at he2
    have he : e = 1 ∨ e = 2 ∨ e = 3 := by omega
    rcases he with rfl | rfl | rfl <;> decide
  obtain ⟨L, hL⟩ := h.1.mpr hok
  exact ⟨L, hL, h.2 L hL⟩

/-!
## C8 — the k-combination generator
-/

theorem ValidState.tail {n v : Nat} {rest : List Nat}
    (h : ValidState n (v :: rest)) : ValidState n rest :=
  ⟨h.1.tail, fun x hx => h.2 x (List.mem_cons_of_mem _ hx)⟩

theorem combination_next_cons_none {n v : Nat} {rest : List Nat}
    (h : combination_next n rest = none) :
    combination_next n (v :: rest)
      = if v + (rest.length + 1) < n then
          some (List.range' (v + 1) (rest.length + 1))
        else none := by
  rw [combination_next, h]

theorem combination_next_cons_some {n v : Nat} {rest rest2 : List Nat}
    (h : combination_next n rest = some rest2) :
    combination_next n (v :: rest) = some (v :: rest2) := by
  rw [combination_next, h]

theorem chain_head_add_length_le (n : Nat) :
    ∀ (t : List Nat) (a : Nat), List.Chain' (· < ·) (a :: t) →
      (∀ x ∈ a :: t, x < n) → a + (a :: t).length ≤ n := by
  intro t
  induction t with
  | nil =>
    intro a _ hb
    have := hb a (List.mem_cons_self _ _)
    simpa using this
  | cons u t2 ih =>
    intro a hc hb
    have hau : a < u := (List.chain'_cons.mp hc).1
    have h2 := ih u (List.chain'_cons.mp hc).2 (fun x hx => hb x (List.mem_cons_of_mem _ hx))
    simp only [List.length_cons] at h2 ⊢
    omega

theorem chain_lt_head_le (n : Nat) :
    ∀ (l : List Nat) (y : Nat), List.Chain' (· < ·) (y :: l) → ∀ z ∈ y :: l, y ≤ z := by
  intro l
  induction l with
  | nil =>
    intro y _ z hz
    rcases List.mem_singleton.mp hz with rfl
    exact le_refl z
  | cons w l2 ih =>
    intro y hc z hz
    rcases List.mem_cons.mp hz with rfl | hz2
    · exact le_refl z
    · have hyw : y < w := (List.chain'_cons.mp hc).1
      exact le_trans (le_of_lt hyw) (ih w (List.chain'_cons.mp hc).2 z hz2)

theorem chain_lt_head_lt (n : Nat) :
    ∀ (l : List Nat) (a : Nat), List.Chain' (· < ·) (a :: l) → ∀ z ∈ l, a < z := by
  intro l a hc z hz
  rcases l with _ | ⟨y, l2⟩
  · cases hz
  · have hay : a < y := (List.chain'_cons.mp hc).1
    have := chain_lt_head_le n (l2) y (List.chain'_cons.mp hc).2 z hz
    omega

theorem range'_one_valid {n a m : Nat} (h : a + m ≤ n) :
    ValidState n (List.range' a m) ∧ (List.range' a m).length = m := by
  refine ⟨⟨?_, ?_⟩, by simp⟩
  · induction m generalizing a with
    | zero => exact List.chain'_nil
    | succ m ih =>
      rw [List.range'_succ]
      cases m with
      | zero => exact List.chain'_singleton _
      | succ m2 =>
        rw [List.range'_succ]
        refine List.chain'_cons.mpr ⟨by omega, ?_⟩
        have := ih (a := a + 1) (by omega)
        rwa [List.range'_succ] at this
  · intro x hx
    rw [List.mem_range'] at hx
    obtain ⟨i, hi, rfl⟩ := hx
    omega

theorem combination_next_eq_none_iff (n : Nat) :
    ∀ s : List Nat, ValidState n s →
      (combination_next n s = none ↔ s = combination_last n s.length) := by
  intro s
  induction s with
  | nil =>
    intro _
    constructor
    · intro _; rfl
    · intro _; rfl
  | cons v rest ih =>
    intro hv
    constructor
    · intro h
      rcases hnext : combination_next n rest with _ | s2
      · rw [combination_next_cons_none hnext] at h
        have hbound : ¬ v + (rest.length + 1) < n := by
          by_contra hcon
          rw [if_pos hcon] at h
          cases h
        have hrest := (ih hv.tail).mp hnext
        have hvlt : v < n := hv.2 v (List.mem_cons_self _ _)
        rcases hre : rest with _ | ⟨u, rr⟩
        · subst hre
          simp only [List.length_nil] at hrest ⊢
          rw [combination_last, List.length_cons]
          have hveq : v = n - 1 := by
            simp only [List.length_nil] at hbound
            omega
          subst hveq
          rfl
        · subst hre
          rw [combination_last, List.length_cons] at hrest
          have hL : rr.length + 1 ≤ n := by
            have := chain_head_add_length_le n rr u hv.tail.1 hv.tail.2
            simp only [List.length_cons] at this
            have hult : u < n := hv.tail.2 u (List.mem_cons_self _ _)
            omega
          have hu : u = n - (rr.length + 1) := by
            have hexp := hrest
            rw [List.range'_succ] at hexp
            exact ((List.cons.injEq _ _ _ _).mp hexp).1
          have hvu : v < u := (List.chain'_cons.mp hv.1).1
          have hveq : v = n - (rr.length + 2) := by
            simp only [List.length_cons] at hbound
            omega
          rw [combination_last]
          simp only [List.length_cons]
          rw [List.range'_succ]
          have h1 : n - (rr.length + 1 + 1) = v := by omega
          rw [h1]
          have h3 : v + 1 = n - (rr.length + 1) := by omega
          rw [h3]
          exact congrArg (v :: ·) hrest
      · rw [combination_next_cons_some hnext] at h
        simp at h
    · intro h
      have hvlt : v < n := hv.2 v (List.mem_cons_self _ _)
      have hlen : rest.length + 1 ≤ n := by
        have := chain_head_add_length_le n rest v hv.1 hv.2
        simp only [List.length_cons] at this
        omega
      have hdecomp : v = n - (rest.length + 1) ∧
          rest = List.range' (n - (rest.length + 1) + 1) rest.length := by
        rw [combination_last, List.length_cons, List.range'_succ] at h
        exact ⟨((List.cons.injEq _ _ _ _).mp h).1, ((List.cons.injEq _ _ _ _).mp h).2⟩
      have hrlast : rest = combination_last n rest.length := by
        have h3 : n - (rest.length + 1) + 1 = n - rest.length := by omega
        rw [combination_last, ← h3]
        exact hdecomp.2
      have hnone : combination_next n rest = none := (ih hv.tail).mpr hrlast
      rw [combination_next_cons_none hnone]
      rw [if_neg (by omega : ¬ v + (rest.length + 1) < n)]

theorem range'_succ_le_of_chain (n : Nat) :
    ∀ (t : List Nat) (w : Nat), List.Chain' (· < ·) (w :: t) →
      List.range' (w + 1) t.length = t ∨
        List.Lex (· < ·) (List.range' (w + 1) t.length) t := by
  intro t
  induction t with
  | nil => intro w _; left; rfl
  | cons u t2 ih =>
    intro w hc
    have hwu : w < u := (List.chain'_cons.mp hc).1
    simp only [List.length_cons]
    rw [List.range'_succ]
    by_cases he : u = w + 1
    · subst he
      rcases ih (w + 1) (List.chain'_cons.mp hc).2 with h | h
      · left
        rw [h]
      · right
        exact List.Lex.cons h
    · right
      exact List.Lex.rel (by omega)

theorem not_last_lex (n : Nat) :
    ∀ (t : List Nat), ValidState n t →
      ¬ List.Lex (· < ·) (combination_last n t.length) t := by
  intro t
  induction t with
  | nil => intro _ h; exact List.Lex.not_nil_right _ _ h
  | cons a t2 ih =>
    intro hv hlex
    have hb := chain_head_add_length_le n t2 a hv.1 hv.2
    simp only [List.length_cons] at hb
    rw [combination_last, List.length_cons, List.range'_succ] at hlex
    cases hlex with
    | rel h => omega
    | cons h =>
      have heq : n - (t2.length + 1) + 1 = n - t2.length := by omega
      rw [heq] at h
      exact ih hv.tail (by rw [combination_last]; exact h)

theorem combination_next_some_spec (n : Nat) :
    ∀ (s s2 : List Nat), ValidState n s → combination_next n s = some s2 →
      ValidState n s2 ∧ s2.length = s.length ∧ List.Lex (· < ·) s s2 ∧
      (∀ t, ValidState n t → t.length = s.length → List.Lex (· < ·) s t →
        s2 = t ∨ List.Lex (· < ·) s2 t) := by
  intro s
  induction s with
  | nil => intro s2 _ h; cases h
  | cons v rest ih =>
    intro s2 hv hnext
    rcases hrest : combination_next n rest with _ | rest2
    · rw [combination_next_cons_none hrest] at hnext
      by_cases hb : v + (rest.length + 1) < n
      · rw [if_pos hb] at hnext
        have hs2 : s2 = List.range' (v + 1) (rest.length + 1) := by
          cases hnext; rfl
        subst hs2
        have hrlast := (combination_next_eq_none_iff n rest hv.tail).mp hrest
        have hvalid := range'_one_valid (n := n) (a := v + 1) (m := rest.length + 1)
          (by omega)
        refine ⟨hvalid.1, by simp [hvalid.2], ?_, ?_⟩
        · rw [List.range'_succ]
          exact List.Lex.rel (by omega)
        · intro t hvt hlen hlex
          rcases t with _ | ⟨w, t2⟩
          · cases hlex
          · simp only [List.length_cons] at hlen
            cases hlex with
            | rel hvw =>
              rcases Nat.lt_or_ge (v + 1) w with hw | hw
              · right
                rw [List.range'_succ]
                exact List.Lex.rel hw
              · have hww : w = v + 1 := by omega
                subst hww
                have hl2 : rest.length = t2.length := by omega
                rcases range'_succ_le_of_chain n t2 (v + 1) hvt.1 with h | h
                · left
                  rw [List.range'_succ, hl2, h]
                · right
                  rw [List.range'_succ, hl2]
                  exact List.Lex.cons h
            | cons hlex2 =>
              refine absurd hlex2 ?_
              have hl2 : rest.length = t2.length := by omega
              rw [hrlast, hl2]
              exact not_last_lex n t2 hvt.tail
      · rw [if_neg hb] at hnext
        cases hnext
    · rw [combination_next_cons_some hrest] at hnext
      have hs2 : s2 = v :: rest2 := by cases hnext; rfl
      subst hs2
      obtain ⟨hv2, hlen2, hlex2, hmin2⟩ := ih rest2 hv.tail hrest
      have hvch : List.Chain' (· < ·) (v :: rest2) := by
        rcases hre : rest2 with _ | ⟨u2, rr⟩
        · exact List.chain'_singleton v
        · rw [hre] at hlen2
          obtain ⟨x, xs, hxe⟩ : ∃ x xs, rest = x :: xs := by
            cases rest with
            | nil => simp at hlen2
            | cons x xs => exact ⟨x, xs, rfl⟩
          have hvx : v < x := by
            rw [hxe] at hv
            exact (List.chain'_cons.mp hv.1).1
          have hxu : x ≤ u2 := by
            rw [hxe, hre] at hlex2
            cases hlex2 with
            | rel h => omega
            | cons h => omega
          refine List.chain'_cons.mpr ⟨by omega, ?_⟩
          rw [← hre]
          exact hv2.1
      refine ⟨⟨hvch, ?_⟩, by simp [hlen2], List.Lex.cons hlex2, ?_⟩
      · intro x hx
        rcases List.mem_cons.mp hx with rfl | hx
        · exact hv.2 x (List.mem_cons_self _ _)
        · exact hv2.2 x hx
      · intro t hvt hlen hlex
        rcases t with _ | ⟨w, t2⟩
        · cases hlex
        · simp only [List.length_cons] at hlen
          cases hlex with
          | rel hvw =>
            right
            exact List.Lex.rel hvw
          | cons h =>
            rcases hmin2 t2 hvt.tail (by omega) h with rfl | hlt
            · left; rfl
            · right
              exact List.Lex.cons hlt

theorem combination_run_succ_none {n fuel : Nat} {s : List Nat}
    (h : combination_next n s = none) :
    combination_run n (fuel + 1) s = [s] := by
  rw [combination_run, h]

theorem combination_run_succ_some {n fuel : Nat} {s s2 : List Nat}
    (h : combination_next n s = some s2) :
    combination_run n (fuel + 1) s = s :: combination_run n fuel s2 := by
  rw [combination_run, h]

theorem combination_run_shape (n fuel : Nat) (s : List Nat) :
    ∃ t, combination_run n fuel s = s :: t := by
  cases fuel with
  | zero => exact ⟨[], rfl⟩
  | succ fuel =>
    rcases hnext : combination_next n s with _ | s2
    · exact ⟨[], combination_run_succ_none hnext⟩
    · exact ⟨_, combination_run_succ_some hnext⟩

theorem combination_run_valid (n : Nat) :
    ∀ (fuel : Nat) (s : List Nat), ValidState n s →
      ∀ x ∈ combination_run n fuel s, ValidState n x ∧ x.length = s.length := by
  intro fuel
  induction fuel with
  | zero =>
    intro s hs x hx
    rcases List.mem_singleton.mp hx with rfl
    exact ⟨hs, rfl⟩
  | succ fuel ih =>
    intro s hs x hx
    rcases hnext : combination_next n s with _ | s2
    · rw [combination_run_succ_none hnext] at hx
      rcases List.mem_singleton.mp hx with rfl
      exact ⟨hs, rfl⟩
    · rw [combination_run_succ_some hnext] at hx
      rcases List.mem_cons.mp hx with rfl | hx
      · exact ⟨hs, rfl⟩
      · obtain ⟨hv2, hlen2, _, _⟩ := combination_next_some_spec n s s2 hs hnext
        obtain ⟨hvx, hlx⟩ := ih s2 hv2 x hx
        exact ⟨hvx, by omega⟩

theorem combination_run_chain (n : Nat) :
    ∀ (fuel : Nat) (s : List Nat), ValidState n s →
      List.Chain' (List.Lex (· < ·)) (combination_run n fuel s) := by
  intro fuel
  induction fuel with
  | zero => intro s _; exact List.chain'_singleton s
  | succ fuel ih =>
    intro s hs
    rcases hnext : combination_next n s with _ | s2
    · rw [combination_run_succ_none hnext]
      exact List.chain'_singleton s
    · rw [combination_run_succ_some hnext]
      obtain ⟨hv2, _, hlex2, _⟩ := combination_next_some_spec n s s2 hs hnext
      obtain ⟨t, ht⟩ := combination_run_shape n fuel s2
      rw [ht]
      refine List.chain'_cons.mpr ⟨hlex2, ?_⟩
      rw [← ht]
      exact ih s2 hv2

theorem combination_run_exhaust (n : Nat) :
    ∀ (fuel : Nat) (s : List Nat),
      (combination_run n fuel s).length = fuel + 1 ∨
      (∃ last, (combination_run n fuel s).getLast? = some last ∧
        combination_next n last = none) := by
  intro fuel
  induction fuel with
  | zero => intro s; left; rfl
  | succ fuel ih =>
    intro s
    rcases hnext : combination_next n s with _ | s2
    · right
      rw [combination_run_succ_none hnext]
      exact ⟨s, rfl, hnext⟩
    · rw [combination_run_succ_some hnext]
      rcases ih s2 with h | ⟨last, hl, hn⟩
      · left
        simp only [List.length_cons, h]
      · right
        refine ⟨last, ?_, hn⟩
        obtain ⟨t, ht⟩ := combination_run_shape n fuel s2
        rw [ht, List.getLast?_cons_cons, ← ht, hl]

theorem combination_run_complete (n : Nat) :
    ∀ (fuel : Nat) (s t : List Nat), ValidState n s → ValidState n t →
      t.length = s.length → (s = t ∨ List.Lex (· < ·) s t) →
      (∃ last, (combination_run n fuel s).getLast? = some last ∧
        combination_next n last = none) →
      t ∈ combination_run n fuel s := by
  intro fuel
  induction fuel with
  | zero =>
    intro s t hs ht hlen hle hcomp
    obtain ⟨last, hl, hn⟩ := hcomp
    have hrun : combination_run n 0 s = [s] := rfl
    rw [hrun] at hl ⊢
    have hlast : last = s := by
      cases hl
      rfl
    subst hlast
    rcases hle with rfl | hlex
    · exact List.mem_singleton.mpr rfl
    · exfalso
      have hslast := (combination_next_eq_none_iff n last hs).mp hn
      rw [hslast] at hlex
      refine not_last_lex n t ht ?_
      rw [hlen]
      exact hlex
  | succ fuel ih =>
    intro s t hs ht hlen hle hcomp
    rcases hle with rfl | hlex
    · obtain ⟨u, hu⟩ := combination_run_shape n (fuel + 1) s
      rw [hu]
      exact List.mem_cons_self _ _
    · rcases hnext : combination_next n s with _ | s2
      · exfalso
        have hslast := (combination_next_eq_none_iff n s hs).mp hnext
        rw [hslast] at hlex
        refine not_last_lex n t ht ?_
        rw [hlen]
        exact hlex
      · rw [combination_run_succ_some hnext] at hcomp ⊢
        obtain ⟨hv2, hlen2, _, hmin2⟩ := combination_next_some_spec n s s2 hs hnext
        have hcomp2 : ∃ last, (combination_run n fuel s2).getLast? = some last ∧
            combination_next n last = none := by
          obtain ⟨last, hl, hn⟩ := hcomp
          obtain ⟨u, hu⟩ := combination_run_shape n fuel s2
          rw [hu, List.getLast?_cons_cons, ← hu] at hl
          exact ⟨last, hl, hn⟩
        rcases hmin2 t ht hlen hlex with heq | hlt
        · refine List.mem_cons_of_mem _ ?_
          obtain ⟨u, hu⟩ := combination_run_shape n fuel s2
          rw [hu, heq]
          exact List.mem_cons_self _ _
        · exact List.mem_cons_of_mem _
            (ih s2 t hv2 ht (by omega) (Or.inr hlt) hcomp2)

theorem chain_lt_sublist_range' (n : Nat) :
    ∀ (l : List Nat) (lo : Nat), List.Chain' (· < ·) l →
      (∀ x ∈ l, lo ≤ x ∧ x < n) → l.Sublist (List.range' lo (n - lo)) := by
  intro l
  induction l with
  | nil => intro lo _ _; exact List.nil_sublist _
  | cons a l2 ih =>
    intro lo hc hb
    have ha := hb a (List.mem_cons_self _ _)
    have hsub : (a :: l2).Sublist (List.range' a (n - a)) := by
      have hr : List.range' a (n - a) = a :: List.range' (a + 1) (n - a - 1) := by
        have h : n - a = (n - a - 1) + 1 := by omega
        conv_lhs => rw [h]
        rw [List.range'_succ]
      rw [hr]
      refine List.Sublist.cons₂ a (ih (a + 1) hc.tail ?_)
      intro x hx
      have hxb := hb x (List.mem_cons_of_mem _ hx)
      have hax : a < x := chain_lt_head_lt n l2 a hc x hx
      exact ⟨by omega, hxb.2⟩
    have hall : (List.range' a (n - a)).Sublist (List.range' lo (n - lo)) := by
      have h1 : lo + 1 * (a - lo) = a := by omega
      have h2 : (n - a) + (a - lo) = n - lo := by omega
      have hsplit := List.range'_append lo (a - lo) (n - a) 1
      rw [h1, h2] at hsplit
      rw [← hsplit]
      exact List.sublist_append_right _ _
    exact hsub.trans hall

theorem valid_iff_mem_sublistsLen (n k : Nat) (x : List Nat) :
    (ValidState n x ∧ x.length = k) ↔ x ∈ List.sublistsLen k (List.range n) := by
  rw [List.mem_sublistsLen]
  constructor
  · rintro ⟨⟨hc, hb⟩, hlen⟩
    refine ⟨?_, hlen⟩
    have := chain_lt_sublist_range' n x 0 hc (fun y hy => ⟨Nat.zero_le y, hb y hy⟩)
    rwa [Nat.sub_zero, ← List.range_eq_range'] at this
  · rintro ⟨hsub, hlen⟩
    refine ⟨⟨?_, ?_⟩, hlen⟩
    · rw [List.chain'_iff_pairwise]
      exact (List.pairwise_lt_range n).sublist hsub
    · intro y hy
      exact List.mem_range.mp (hsub.subset hy)

theorem first_combination_le (n : Nat) :
    ∀ (t : List Nat), List.Chain' (· < ·) t →
      List.range t.length = t ∨ List.Lex (· < ·) (List.range t.length) t := by
  intro t hc
  rcases t with _ | ⟨u, t2⟩
  · left; rfl
  · simp only [List.length_cons]
    rw [List.range_eq_range', List.range'_succ]
    rcases Nat.eq_zero_or_pos u with rfl | hu
    · rcases range'_succ_le_of_chain n t2 0 hc with h | h
      · left
        rw [h]
      · right
        exact List.Lex.cons h
    · right
      exact List.Lex.rel (by omega)

theorem combination_first_valid {n k : Nat} (hk : k ≤ n) :
    ValidState n (combination_first k) ∧ (combination_first k).length = k := by
  refine ⟨⟨?_, ?_⟩, List.length_range k⟩
  · rw [List.chain'_iff_pairwise]
    exact List.pairwise_lt_range k
  · intro x hx
    have := List.mem_range.mp hx
    omega

theorem combination_all_spec (n k : Nat) (hk : k ≤ n) :
    (∀ x, x ∈ combination_all n k ↔ (ValidState n x ∧ x.length = k)) ∧
    List.Pairwise (List.Lex (· < ·)) (combination_all n k) ∧
    (combination_all n k).length = Nat.choose n k := by
  have hfirst := combination_first_valid (n := n) hk
  have hpw : List.Pairwise (List.Lex (· < ·)) (combination_all n k) := by
    rw [← List.chain'_iff_pairwise]
    exact combination_run_chain n (Nat.choose n k) (combination_first k) hfirst.1
  have hnodup : (combination_all n k).Nodup := by
    refine hpw.imp ?_
    intro a b hab heq
    subst heq
    exact absurd hab (irrefl a)
  have hvalid : ∀ x ∈ combination_all n k, ValidState n x ∧ x.length = k := by
    intro x hx
    have := combination_run_valid n (Nat.choose n k) (combination_first k) hfirst.1 x hx
    rw [hfirst.2] at this
    exact this
  have hsubset : combination_all n k ⊆ List.sublistsLen k (List.range n) := by
    intro x hx
    exact (valid_iff_mem_sublistsLen n k x).mp (hvalid x hx)
  have hlen_le : (combination_all n k).length ≤ Nat.choose n k := by
    have := (List.subperm_of_subset hnodup hsubset).length_le
    rwa [List.length_sublistsLen, List.length_range] at this
  have hcomp : ∃ last, (combination_all n k).getLast? = some last ∧
      combination_next n last = none := by
    rcases combination_run_exhaust n (Nat.choose n k) (combination_first k) with h | h
    · exfalso
      rw [combination_all] at hlen_le
      omega
    · exact h
  have hmem : ∀ x, x ∈ combination_all n k ↔ (ValidState n x ∧ x.length = k) := by
    intro x
    constructor
    · exact hvalid x
    · rintro ⟨hvx, hlx⟩
      refine combination_run_complete n (Nat.choose n k) (combination_first k) x
        hfirst.1 hvx (by rw [hfirst.2, hlx]) ?_ hcomp
      have hfle := first_combination_le n x hvx.1
      rw [hlx] at hfle
      rcases hfle with h | h
      · exact Or.inl h
      · exact Or.inr h
  refine ⟨hmem, hpw, ?_⟩
  have hperm : (combination_all n k).Perm (List.sublistsLen k (List.range n)) := by
    rw [List.perm_ext_iff_of_nodup hnodup (List.nodup_sublistsLen k (List.nodup_range n))]
    intro x
    rw [hmem x, valid_iff_mem_sublistsLen]
  rw [hperm.length_eq, List.length_sublistsLen, List.length_range]

theorem combo_lists_mem_props {n kmax : Nat} (hkm : kmax ≤ n) {c : List Nat}
    (hc : c ∈ combo_lists n kmax) :
    List.Chain' (· < ·) c ∧ 2 ≤ c.length ∧ ∀ x ∈ c, 1 ≤ x ∧ x ≤ n := by
  rw [combo_lists, List.mem_flatMap] at hc
  obtain ⟨k, hk, hcc⟩ := hc
  rw [List.mem_map] at hcc
  obtain ⟨st, hst, rfl⟩ := hcc
  rw [List.mem_range'] at hk
  obtain ⟨i, hi, rfl⟩ := hk
  have hk2 : 2 + 1 * i ≤ n := by omega
  have hvalid := ((combination_all_spec n (2 + 1 * i) hk2).1 st).mp hst
  have hmap : st.map (fun e => (raw_independent_features n).getD e 0)
      = st.map (· + 1) := by
    apply List.map_congr_left
    intro e he
    have hen : e < n := hvalid.1.2 e he
    rw [raw_independent_features, List.getD_eq_getElem?_getD,
      List.getElem?_range' 1 1 hen, Option.getD_some]
    omega
  rw [hmap]
  refine ⟨?_, ?_, ?_⟩
  · rw [List.chain'_map]
    exact hvalid.1.1.imp (fun {a b} h => by omega)
  · rw [List.length_map, hvalid.2]
    omega
  · intro x hx
    rw [List.mem_map] at hx
    obtain ⟨e, he, rfl⟩ := hx
    have := hvalid.1.2 e he
    omega

/-- C8: for `1 ≤ k ≤ n` the combination generator starts at the consecutive
indices `[0 … k-1]`; from any valid state, `next()` either advances to the
immediately following `k`-combination of `{0 … n-1}` in strict lexicographic
order (returning true), or reports exhaustion exactly on the
lexicographically last combination; the generated sequence consists of
exactly `C(n, k)` distinct combinations — all of them — in strictly
increasing lexicographic order; and constructing the generator throws
exactly when `k` exceeds the number of symbols. -/
theorem combination_generator_correct :
    ∀ n k : Nat, 1 ≤ k → k ≤ n →
      (combination_first k = List.range k) ∧
      (∀ s, ValidState n s → s.length = k →
        ((combination_next n s = none ↔ s = combination_last n k) ∧
         (∀ s2, combination_next n s = some s2 →
            ValidState n s2 ∧ s2.length = k ∧ List.Lex (· < ·) s s2 ∧
            ∀ t, ValidState n t → t.length = k → List.Lex (· < ·) s t →
              s2 = t ∨ List.Lex (· < ·) s2 t))) ∧
      (∀ x, x ∈ combination_all n k ↔ (ValidState n x ∧ x.length = k)) ∧
      List.Pairwise (List.Lex (· < ·)) (combination_all n k) ∧
      (combination_all n k).length = Nat.choose n k ∧
      (∀ (symbols : List Nat) (k2 : Nat),
        (∃ msg, combination_new symbols k2 = Except.error msg) ↔ k2 > symbols.length) := by
  intro n k hk1 hkn
  refine ⟨rfl, ?_, (combination_all_spec n k hkn).1, (combination_all_spec n k hkn).2.1,
    (combination_all_spec n k hkn).2.2, ?_⟩
  · intro s hvs hlen
    constructor
    · rw [combination_next_eq_none_iff n s hvs, hlen]
    · intro s2 hnext
      obtain ⟨h1, h2, h3, h4⟩ := combination_next_some_spec n s s2 hvs hnext
      exact ⟨h1, by omega, h3, fun t hvt hlt hlex => h4 t hvt (by omega) hlex⟩
  · intro symbols k2
    constructor
    · rintro ⟨msg, hmsg⟩
      by_contra hcon
      rw [combination_new, if_neg hcon] at hmsg
      cases hmsg
    · intro hgt
      exact ⟨_, by rw [combination_new, if_pos hgt]⟩

/-- Witness for C8 at `n = 3`, `k = 2`. -/
theorem combination_generator_correct_witness :
    (combination_first 2 = List.range 2) ∧
    (∀ s, ValidState 3 s → s.length = 2 →
      ((combination_next 3 s = none ↔ s = combination_last 3 2) ∧
       (∀ s2, combination_next 3 s = some s2 →
          ValidState 3 s2 ∧ s2.length = 2 ∧ List.Lex (· < ·) s s2 ∧
          ∀ t, ValidState 3 t → t.length = 2 → List.Lex (· < ·) s t →
            s2 = t ∨ List.Lex (· < ·) s2 t))) ∧
    (∀ x, x ∈ combination_all 3 2 ↔ (ValidState 3 x ∧ x.length = 2)) ∧
    List.Pairwise (List.Lex (· < ·)) (combination_all 3 2) ∧
    (combination_all 3 2).length = Nat.choose 3 2 ∧
    (∀ (symbols : List Nat) (k2 : Nat),
      (∃ msg, combination_new symbols k2 = Except.error msg) ↔ k2 > symbols.length) :=
  combination_generator_correct 3 2 (by omega) (by omega)


/-!
## The string order and the sorted-set model
-/

theorem charsLt_cons_iff (a b : Char) (as bs : List Char) :
    charsLt (a :: as) (b :: bs) = true ↔
      a.toNat < b.toNat ∨ (a.toNat = b.toNat ∧ charsLt as bs = true) := by
  simp only [charsLt, Bool.or_eq_true, Bool.and_eq_true, Nat.blt_eq, Nat.beq_eq]

theorem charsLt_irrefl : ∀ l, charsLt l l = false := by
  intro l
  induction l with
  | nil => rfl
  | cons a as ih =>
    simp only [charsLt, ih, Bool.and_false, Bool.or_false]
    cases h : Nat.blt a.toNat a.toNat
    · rfl
    · exact absurd (Nat.blt_eq.mp h) (Nat.lt_irrefl _)

theorem charsLt_trans :
    ∀ a b c, charsLt a b = true → charsLt b c = true → charsLt a c = true := by
  intro a
  induction a with
  | nil =>
    intro b c hab hbc
    cases b with
    | nil => exact absurd hab (by simp [charsLt])
    | cons y bs =>
      cases c with
      | nil => exact absurd hbc (by simp [charsLt])
      | cons z cs => simp [charsLt]
  | cons x as ih =>
    intro b c hab hbc
    cases b with
    | nil => exact absurd hab (by simp [charsLt])
    | cons y bs =>
      cases c with
      | nil => exact absurd hbc (by simp [charsLt])
      | cons z cs =>
        rw [charsLt_cons_iff] at hab hbc ⊢
        rcases hab with h1 | ⟨h1, h1t⟩
        · rcases hbc with h2 | ⟨h2, _⟩
          · exact Or.inl (Nat.lt_trans h1 h2)
          · exact Or.inl (h2 ▸ h1)
        · rcases hbc with h2 | ⟨h2, h2t⟩
          · exact Or.inl (h1 ▸ h2)
          · exact Or.inr ⟨h1.trans h2, ih bs cs h1t h2t⟩

theorem charsLt_eq_of_not :
    ∀ a b, charsLt a b = false → charsLt b a = false → a = b := by
  intro a
  induction a with
  | nil =>
    intro b hab _
    cases b with
    | nil => rfl
    | cons y bs => exact absurd hab (by simp [charsLt])
  | cons x as ih =>
    intro b hab hba
    cases b with
    | nil => exact absurd hba (by simp [charsLt])
    | cons y bs =>
      have hab' : ¬ (x.toNat < y.toNat ∨ (x.toNat = y.toNat ∧ charsLt as bs = true)) := by
        rw [← charsLt_cons_iff]
        simp [hab]
      have hba' : ¬ (y.toNat < x.toNat ∨ (y.toNat = x.toNat ∧ charsLt bs as = true)) := by
        rw [← charsLt_cons_iff]
        simp [hba]
      push_neg at hab' hba'
      have hxy : x.toNat = y.toNat := by omega
      have hchar : x = y := by
        have := congrArg Char.ofNat hxy
        rwa [Char.ofNat_toNat, Char.ofNat_toNat] at this
      have htail : as = bs := by
        apply ih bs
        · have := hab'.2 hxy
          revert this
          cases charsLt as bs <;> simp
        · have := hba'.2 hxy.symm
          revert this
          cases charsLt bs as <;> simp
      rw [hchar, htail]

theorem strLt_irrefl (a : String) : strLt a a = false := charsLt_irrefl a.data

theorem strLt_trans {a b c : String} (h1 : strLt a b = true) (h2 : strLt b c = true) :
    strLt a c = true := charsLt_trans a.data b.data c.data h1 h2

theorem strLt_eq_of_not {a b : String} (h1 : strLt a b = false) (h2 : strLt b a = false) :
    a = b := String.ext (charsLt_eq_of_not a.data b.data h1 h2)

theorem strLt_asymm {a b : String} (h : strLt a b = true) : strLt b a = false := by
  cases hba : strLt b a
  · rfl
  · have := strLt_trans h hba
    rw [strLt_irrefl] at this
    cases this

theorem mem_setInsert (x y : String) : ∀ l, y ∈ setInsert x l ↔ y = x ∨ y ∈ l := by
  intro l
  induction l with
  | nil => simp [setInsert]
  | cons z l ih =>
    rw [setInsert]
    by_cases h1 : strLt x z = true
    · rw [if_pos h1]
      simp [List.mem_cons]
    · rw [if_neg h1]
      by_cases h2 : strLt z x = true
      · rw [if_pos h2]
        simp only [List.mem_cons, ih]
        tauto
      · rw [if_neg h2]
        have h1f : strLt x z = false := by revert h1; cases strLt x z <;> simp
        have h2f : strLt z x = false := by revert h2; cases strLt z x <;> simp
        have hxz : x = z := strLt_eq_of_not h1f h2f
        subst hxz
        simp [List.mem_cons]

theorem SortedS_setInsert (x : String) : ∀ l, SortedS l → SortedS (setInsert x l) := by
  intro l
  induction l with
  | nil => intro _; exact List.pairwise_singleton _ x
  | cons z l ih =>
    intro hs
    rw [SortedS, List.pairwise_cons] at hs
    rw [setInsert]
    by_cases h1 : strLt x z = true
    · rw [if_pos h1]
      rw [SortedS, List.pairwise_cons]
      refine ⟨?_, List.pairwise_cons.mpr hs⟩
      intro b hb
      rcases List.mem_cons.mp hb with rfl | hb
      · exact h1
      · exact strLt_trans h1 (hs.1 b hb)
    · rw [if_neg h1]
      by_cases h2 : strLt z x = true
      · rw [if_pos h2]
        rw [SortedS, List.pairwise_cons]
        refine ⟨?_, ih hs.2⟩
        intro b hb
        rcases (mem_setInsert x b l).mp hb with rfl | hb
        · exact h2
        · exact hs.1 b hb
      · rw [if_neg h2]
        exact List.pairwise_cons.mpr hs

theorem mem_foldl_setInsert :
    ∀ (l acc : List String) (y : String),
      y ∈ l.foldl (fun s x => setInsert x s) acc ↔ y ∈ acc ∨ y ∈ l := by
  intro l
  induction l with
  | nil => simp
  | cons x l ih =>
    intro acc y
    rw [List.foldl_cons, ih, mem_setInsert]
    simp only [List.mem_cons]
    tauto

theorem SortedS_foldl_setInsert :
    ∀ (l acc : List String), SortedS acc →
      SortedS (l.foldl (fun s x => setInsert x s) acc) := by
  intro l
  induction l with
  | nil => intro acc h; exact h
  | cons x l ih =>
    intro acc h
    exact ih _ (SortedS_setInsert x acc h)

theorem mem_setOfList (l : List String) (y : String) : y ∈ setOfList l ↔ y ∈ l := by
  rw [setOfList, mem_foldl_setInsert]
  simp

theorem SortedS_setOfList (l : List String) : SortedS (setOfList l) :=
  SortedS_foldl_setInsert l [] List.Pairwise.nil

theorem mem_setUnion (a b : List String) (y : String) :
    y ∈ setUnion a b ↔ y ∈ a ∨ y ∈ b := mem_foldl_setInsert b a y

theorem SortedS_setUnion (a b : List String) (h : SortedS a) : SortedS (setUnion a b) :=
  SortedS_foldl_setInsert b a h

theorem mem_setInter (a b : List String) (y : String) :
    y ∈ setInter a b ↔ y ∈ a ∧ y ∈ b := by
  rw [setInter, List.mem_filter, List.elem_iff]

theorem SortedS_setInter (a b : List String) (h : SortedS a) : SortedS (setInter a b) :=
  h.filter _

theorem mem_setDiff (a b : List String) (y : String) :
    y ∈ setDiff a b ↔ y ∈ a ∧ y ∉ b := by
  rw [setDiff, List.mem_filter]
  simp only [Bool.not_eq_true', ← Bool.not_eq_true, List.elem_iff]

theorem SortedS_setDiff (a b : List String) (h : SortedS a) : SortedS (setDiff a b) :=
  h.filter _

theorem SortedS.nodupS {l : List String} (h : SortedS l) : l.Nodup := by
  refine h.imp ?_
  intro a b hab heq
  subst heq
  rw [strLt_irrefl] at hab
  cases hab

theorem SortedS_eq_of_mem_iff :
    ∀ a b : List String, SortedS a → SortedS b → (∀ x, x ∈ a ↔ x ∈ b) → a = b := by
  intro a
  induction a with
  | nil =>
    intro b _ _ hmem
    cases b with
    | nil => rfl
    | cons y bs => exact absurd ((hmem y).mpr (List.mem_cons_self y bs)) (List.not_mem_nil y)
  | cons x as ih =>
    intro b hsa hsb hmem
    cases b with
    | nil => exact absurd ((hmem x).mp (List.mem_cons_self x as)) (List.not_mem_nil x)
    | cons y bs =>
      rw [SortedS, List.pairwise_cons] at hsa hsb
      have hxy : x = y := by
        rcases List.mem_cons.mp ((hmem x).mp (List.mem_cons_self x as)) with h | h
        · exact h
        · have h1 := hsb.1 x h
          rcases List.mem_cons.mp ((hmem y).mpr (List.mem_cons_self y bs)) with h' | h'
          · exact h'.symm
          · have h2 := hsa.1 y h'
            have := strLt_trans h1 h2
            rw [strLt_irrefl] at this
            cases this
      subst hxy
      have htails : ∀ z, z ∈ as ↔ z ∈ bs := by
        intro z
        constructor
        · intro hz
          have hzx := hsa.1 z hz
          rcases List.mem_cons.mp ((hmem z).mp (List.mem_cons_of_mem x hz)) with rfl | h
          · rw [strLt_irrefl] at hzx; cases hzx
          · exact h
        · intro hz
          have hzx := hsb.1 z hz
          rcases List.mem_cons.mp ((hmem z).mpr (List.mem_cons_of_mem x hz)) with rfl | h
          · rw [strLt_irrefl] at hzx; cases hzx
          · exact h
      rw [ih bs hsa.2 hsb.2 htails]

theorem nodup_length_le_one {l : List String} (h : l.Nodup)
    (hall : ∀ a ∈ l, ∀ b ∈ l, a = b) : l.length ≤ 1 := by
  cases l with
  | nil => simp
  | cons x l =>
    cases l with
    | nil => simp
    | cons y l =>
      have hxy : x = y := hall x (by simp) y (by simp)
      rw [List.nodup_cons] at h
      exact absurd (hxy ▸ List.mem_cons_self y l) h.1

theorem mem_sortStr (l : List String) (x : String) : x ∈ sortStr l ↔ x ∈ l :=
  (List.perm_insertionSort _ l).mem_iff

theorem perm_sortStr (l : List String) : (sortStr l).Perm l :=
  List.perm_insertionSort _ l


/-!
## Membership masks and building-block membership
-/

theorem bitsum_lt (S : Nat) : ∀ pred, bitsum S pred < 2 ^ S := by
  induction S with
  | zero => intro pred; simp [bitsum]
  | succ S ih =>
    intro pred
    rw [bitsum]
    have h1 := ih (fun p => pred (p + 1))
    have h2 : (if pred 0 then 1 else 0) ≤ 1 := by split <;> simp
    rw [Nat.pow_succ]
    omega

theorem bitsum_testBit (S : Nat) :
    ∀ pred p, (bitsum S pred).testBit p = if p < S then pred p else false := by
  induction S with
  | zero =>
    intro pred p
    rw [bitsum]
    simp [Nat.zero_testBit]
  | succ S ih =>
    intro pred p
    rw [bitsum]
    cases p with
    | zero =>
      rw [if_pos (Nat.succ_pos S), Nat.testBit_zero]
      cases hp : pred 0
      · rw [if_neg (by simp : ¬ (false = true))]
        exact decide_eq_false (by omega)
      · rw [if_pos rfl]
        exact decide_eq_true (by omega)
    | succ q =>
      rw [Nat.testBit_add_one]
      have h1 : ((if pred 0 then 1 else 0) + 2 * bitsum S (fun p => pred (p + 1))) / 2
          = bitsum S (fun p => pred (p + 1)) := by
        split <;> omega
      rw [h1, ih]
      simp only [Nat.succ_lt_succ_iff]

theorem bitsum_eq_of_testBit {S m : Nat} (pred : Nat → Bool) (hm : m < 2 ^ S)
    (h : ∀ p, p < S → pred p = m.testBit p) : bitsum S pred = m := by
  apply Nat.eq_of_testBit_eq
  intro i
  rw [bitsum_testBit]
  by_cases hi : i < S
  · rw [if_pos hi, h i hi]
  · rw [if_neg hi]
    exact (Nat.testBit_lt_two_pow
      (lt_of_lt_of_le hm (Nat.pow_le_pow_right (by norm_num) (by omega)))).symm

theorem mem_unsigned2vector (u i : Nat) :
    i ∈ unsigned2vector u ↔ ∃ b, b < 64 ∧ u.testBit b = true ∧ i = b + 1 := by
  rw [unsigned2vector, List.mem_filterMap]
  constructor
  · rintro ⟨b, hb, hsome⟩
    rw [List.mem_range] at hb
    by_cases ht : u.testBit b = true
    · rw [if_pos ht] at hsome
      cases hsome
      exact ⟨b, hb, ht, rfl⟩
    · rw [if_neg ht] at hsome
      cases hsome
  · rintro ⟨b, hb, ht, rfl⟩
    exact ⟨b, List.mem_range.mpr hb, by rw [if_pos ht]⟩

theorem mem_unsigned2vector_lt {n u : Nat} (hn : n ≤ 64) (hu : u < 2 ^ n) (i : Nat) :
    i ∈ unsigned2vector u ↔ 1 ≤ i ∧ i ≤ n ∧ u.testBit (i - 1) = true := by
  rw [mem_unsigned2vector]
  constructor
  · rintro ⟨b, hb, ht, rfl⟩
    have hbn : b < n := by
      by_contra hc
      rw [Nat.testBit_lt_two_pow
        (lt_of_lt_of_le hu (Nat.pow_le_pow_right (by norm_num) (by omega)))] at ht
      cases ht
    refine ⟨by omega, by omega, ?_⟩
    simpa using ht
  · rintro ⟨h1, h2, ht⟩
    exact ⟨i - 1, by omega, ht, by omega⟩

theorem mem_negate (v : List Nat) (n i : Nat) :
    i ∈ negate v n ↔ (1 ≤ i ∧ i ≤ n) ∧ i ∉ v := by
  rw [negate, List.mem_filter, List.mem_range'_1]
  simp only [decide_eq_true_eq]
  constructor
  · rintro ⟨⟨h1, h2⟩, h3⟩
    exact ⟨⟨by omega, by omega⟩, h3⟩
  · rintro ⟨⟨h1, h2⟩, h3⟩
    exact ⟨⟨by omega, by omega⟩, h3⟩

theorem mem_dedup_inner (nameF : List Nat → String) (i : Nat) :
    ∀ (rawdep : List (List Nat)) (acc : List String) (g : String),
      g ∈ rawdep.foldl
        (fun acc2 j => if i ∈ j ∧ nameF j ∉ acc2 then acc2 ++ [nameF j] else acc2) acc ↔
      g ∈ acc ∨ ∃ j ∈ rawdep, i ∈ j ∧ g = nameF j := by
  intro rawdep
  induction rawdep with
  | nil => simp
  | cons j rest ih =>
    intro acc g
    rw [List.foldl_cons]
    by_cases hc : i ∈ j ∧ nameF j ∉ acc
    · rw [if_pos hc, ih]
      simp only [List.mem_append, List.mem_cons, List.not_mem_nil, or_false]
      constructor
      · rintro ((h | h) | ⟨j2, hj2, hij2, hg⟩)
        · exact Or.inl h
        · exact Or.inr ⟨j, Or.inl rfl, hc.1, h⟩
        · exact Or.inr ⟨j2, Or.inr hj2, hij2, hg⟩
      · rintro (h | ⟨j2, hj2 | hj2, hij2, hg⟩)
        · exact Or.inl (Or.inl h)
        · subst hj2
          exact Or.inl (Or.inr hg)
        · exact Or.inr ⟨j2, hj2, hij2, hg⟩
    · rw [if_neg hc, ih]
      simp only [List.mem_cons]
      constructor
      · rintro (h | ⟨j2, hj2, hij2, hg⟩)
        · exact Or.inl h
        · exact Or.inr ⟨j2, Or.inr hj2, hij2, hg⟩
      · rintro (h | ⟨j2, hj2 | hj2, hij2, hg⟩)
        · exact Or.inl h
        · subst hj2
          by_cases hm : i ∈ j2
          · have : nameF j2 ∈ acc := by
              by_contra hnm
              exact hc ⟨hm, hnm⟩
            exact Or.inl (hg ▸ this)
          · exact absurd hij2 hm
        · exact Or.inr ⟨j2, hj2, hij2, hg⟩

theorem mem_dedup_outer (nameF : List Nat → String) (rawdep : List (List Nat)) :
    ∀ (f : List Nat) (acc : List String) (g : String),
      g ∈ f.foldl
        (fun acc i => rawdep.foldl
          (fun acc2 j => if i ∈ j ∧ nameF j ∉ acc2 then acc2 ++ [nameF j] else acc2)
          acc) acc ↔
      g ∈ acc ∨ ∃ i ∈ f, ∃ j ∈ rawdep, i ∈ j ∧ g = nameF j := by
  intro f
  induction f with
  | nil => simp
  | cons i f ih =>
    intro acc g
    rw [List.foldl_cons, ih, mem_dedup_inner]
    simp only [List.mem_cons]
    constructor
    · rintro ((h | ⟨j, hj, hij, hg⟩) | ⟨i2, hi2, j, hj, hij, hg⟩)
      · exact Or.inl h
      · exact Or.inr ⟨i, Or.inl rfl, j, hj, hij, hg⟩
      · exact Or.inr ⟨i2, Or.inr hi2, j, hj, hij, hg⟩
    · rintro (h | ⟨i2, hi2 | hi2, j, hj, hij, hg⟩)
      · exact Or.inl (Or.inl h)
      · subst hi2
        exact Or.inl (Or.inr ⟨j, hj, hij, hg⟩)
      · exact Or.inr ⟨i2, hi2, j, hj, hij, hg⟩

theorem mem_dedup_name_fold (nameF : List Nat → String) (rawdep : List (List Nat))
    (f : List Nat) (g : String) :
    g ∈ dedup_name_fold nameF rawdep f ↔
      ∃ j ∈ rawdep, (∃ i ∈ f, i ∈ j) ∧ g = nameF j := by
  rw [dedup_name_fold, mem_dedup_outer]
  simp only [List.not_mem_nil, false_or]
  constructor
  · rintro ⟨i, hi, j, hj, hij, hg⟩
    exact ⟨j, hj, ⟨i, hi, hij⟩, hg⟩
  · rintro ⟨j, hj, ⟨i, hi, hij⟩, hg⟩
    exact ⟨i, hi, j, hj, hij, hg⟩

theorem systemList_eq {n M p : Nat} (hp : p < S_count n) :
    systemList n M p = generate_system n M (unsigned2vector p) := by
  rw [systemList, generate_all_systems, List.getD_eq_getElem?_getD,
    List.getElem?_map, List.getElem?_range hp]
  rfl

set_option maxRecDepth 4000 in
theorem system_name_inj64 :
    ∀ p ∈ List.range 64, ∀ q ∈ List.range 64,
      system_name (p + 1) = system_name (q + 1) → p = q := by decide

set_option maxRecDepth 4000 in
theorem system_name_parse :
    ∀ p ∈ List.range 64,
      (2 ≤ (system_name (p + 1)).data.length ∧ (system_name (p + 1)).data.headD ' ' = 'S')
      ∧ parseNatChars ((system_name (p + 1)).data.drop 1) = some (p + 1) := by decide

theorem system2features_name {p : Nat} (hp : p < 64) (ss : List (List String)) :
    system2features ss (system_name (p + 1)) = setOfList (ss.getD p []) := by
  have h := system_name_parse (p + 1 - 1) (List.mem_range.mpr (by omega))
  simp only [Nat.add_sub_cancel] at h
  rw [system2features, if_pos h.1, h.2]
  rfl


/-!
## Per-system membership of each feature category
-/

theorem mem_gen_ind {n p : Nat} (hn : n ≤ 6) (hp : p < 2 ^ n) (g : String) :
    g ∈ generate_independent_features (unsigned2vector p) ↔
      ∃ pr ∈ catalog_ind n, pr.1 = g ∧ pr.2.testBit p = true := by
  rw [generate_independent_features, List.mem_map]
  constructor
  · rintro ⟨i, hi, rfl⟩
    rw [mem_unsigned2vector_lt (by omega) hp] at hi
    refine ⟨(independent_feature_name i, ind_mask n i), ?_, rfl, ?_⟩
    · rw [catalog_ind, List.mem_map]
      exact ⟨i, List.mem_range'_1.mpr ⟨hi.1, by omega⟩, rfl⟩
    · rw [ind_mask, bitsum_testBit, if_pos hp]
      exact hi.2.2
  · rintro ⟨pr, hpr, rfl, hbit⟩
    rw [catalog_ind, List.mem_map] at hpr
    obtain ⟨i, hi, rfl⟩ := hpr
    rw [List.mem_range'_1] at hi
    rw [ind_mask, bitsum_testBit, if_pos hp] at hbit
    exact ⟨i, (mem_unsigned2vector_lt (by omega) hp i).mpr ⟨by omega, by omega, hbit⟩, rfl⟩

theorem mem_gen_or {n M p : Nat} (hn : n ≤ 6) (hp : p < 2 ^ n) (g : String) :
    g ∈ generate_or_features n M (unsigned2vector p) ↔
      hasO M = true ∧ ∃ pr ∈ catalog_or n, pr.1 = g ∧ pr.2.testBit p = true := by
  rw [generate_or_features]
  by_cases hO : hasO M = true
  · rw [if_pos hO, mem_sortStr, mem_dedup_name_fold]
    simp only [hO, true_and]
    constructor
    · rintro ⟨j, hj, ⟨i, hi, hij⟩, rfl⟩
      refine ⟨(or_feature_name j, or_mask n j), ?_, rfl, ?_⟩
      · rw [catalog_or, List.mem_map]
        exact ⟨j, hj, rfl⟩
      · rw [or_mask, bitsum_testBit, if_pos hp, List.any_eq_true]
        rw [mem_unsigned2vector_lt (by omega) hp] at hi
        exact ⟨i, hij, hi.2.2⟩
    · rintro ⟨pr, hpr, rfl, hbit⟩
      rw [catalog_or, List.mem_map] at hpr
      obtain ⟨j, hj, rfl⟩ := hpr
      rw [or_mask, bitsum_testBit, if_pos hp, List.any_eq_true] at hbit
      obtain ⟨i, hij, hbit⟩ := hbit
      have hprops := combo_lists_mem_props (Nat.le_refl n) hj
      refine ⟨j, hj, ⟨i, ?_, hij⟩, rfl⟩
      rw [mem_unsigned2vector_lt (by omega) hp]
      have hi := hprops.2.2 i hij
      exact ⟨hi.1, hi.2, hbit⟩
  · rw [if_neg hO]
    simp [hO]

theorem mem_gen_and {n M p : Nat} (hn : n ≤ 6) (hp : p < 2 ^ n) (g : String) :
    g ∈ generate_and_features n M (unsigned2vector p) ↔
      hasA M = true ∧ ∃ pr ∈ catalog_and n, pr.1 = g ∧ pr.2.testBit p = true := by
  rw [generate_and_features]
  by_cases hA : hasA M = true
  · rw [if_pos hA, mem_sortStr, List.mem_map]
    simp only [hA, true_and]
    constructor
    · rintro ⟨j, hj, rfl⟩
      rw [List.mem_filter, decide_eq_true_eq] at hj
      obtain ⟨hj, hall⟩ := hj
      refine ⟨(and_feature_name j, and_mask n j), ?_, rfl, ?_⟩
      · rw [catalog_and, List.mem_map]
        exact ⟨j, hj, rfl⟩
      · rw [and_mask, bitsum_testBit, if_pos hp, List.all_eq_true]
        intro i hij
        have hi := hall i hij
        rw [mem_unsigned2vector_lt (by omega) hp] at hi
        exact hi.2.2
    · rintro ⟨pr, hpr, rfl, hbit⟩
      rw [catalog_and, List.mem_map] at hpr
      obtain ⟨j, hj, rfl⟩ := hpr
      rw [and_mask, bitsum_testBit, if_pos hp, List.all_eq_true] at hbit
      have hprops := combo_lists_mem_props (Nat.le_refl n) hj
      refine ⟨j, List.mem_filter.mpr ⟨hj, ?_⟩, rfl⟩
      rw [decide_eq_true_eq]
      intro i hij
      rw [mem_unsigned2vector_lt (by omega) hp]
      have hi := hprops.2.2 i hij
      exact ⟨hi.1, hi.2, hbit i hij⟩
  · rw [if_neg hA]
    simp [hA]

theorem mem_gen_not {n M p : Nat} (hn : n ≤ 6) (hp : p < 2 ^ n) (g : String) :
    g ∈ generate_not_features n M (unsigned2vector p) ↔
      hasN M = true ∧ ∃ pr ∈ catalog_not n, pr.1 = g ∧ pr.2.testBit p = true := by
  rw [generate_not_features]
  by_cases hN : hasN M = true
  · rw [if_pos hN, List.mem_map]
    simp only [hN, true_and]
    constructor
    · rintro ⟨i, hi, rfl⟩
      rw [mem_negate] at hi
      refine ⟨(not_feature_name i, not_mask n i), ?_, rfl, ?_⟩
      · rw [catalog_not, List.mem_map]
        exact ⟨i, List.mem_range'_1.mpr ⟨hi.1.1, by omega⟩, rfl⟩
      · rw [not_mask, bitsum_testBit, if_pos hp]
        have hni : i ∉ unsigned2vector p := hi.2
        rw [mem_unsigned2vector_lt (by omega) hp] at hni
        push_neg at hni
        cases htb : p.testBit (i - 1)
        · rfl
        · exact absurd htb (hni hi.1.1 hi.1.2)
    · rintro ⟨pr, hpr, rfl, hbit⟩
      rw [catalog_not, List.mem_map] at hpr
      obtain ⟨i, hi, rfl⟩ := hpr
      rw [List.mem_range'_1] at hi
      rw [not_mask, bitsum_testBit, if_pos hp, Bool.not_eq_true'] at hbit
      refine ⟨i, ?_, rfl⟩
      rw [mem_negate]
      refine ⟨⟨hi.1, by omega⟩, ?_⟩
      rw [mem_unsigned2vector_lt (by omega) hp]
      push_neg
      intro _ _
      simp [hbit]
  · rw [if_neg hN]
    simp [hN]

theorem mem_gen_orn {n M p : Nat} (hn : n ≤ 6) (hp : p < 2 ^ n) (g : String) :
    g ∈ generate_or_not_features n M (unsigned2vector p) ↔
      hasON M = true ∧ ∃ pr ∈ catalog_orn n, pr.1 = g ∧ pr.2.testBit p = true := by
  rw [generate_or_not_features]
  by_cases hON : hasON M = true
  · rw [if_pos hON, mem_sortStr, mem_dedup_name_fold]
    simp only [hON, true_and]
    constructor
    · rintro ⟨j, hj, ⟨i, hi, hij⟩, rfl⟩
      rw [mem_negate] at hi
      refine ⟨(or_not_feature_name j, orn_mask n j), ?_, rfl, ?_⟩
      · rw [catalog_orn, List.mem_map]
        exact ⟨j, hj, rfl⟩
      · rw [orn_mask, bitsum_testBit, if_pos hp, List.any_eq_true]
        refine ⟨i, hij, ?_⟩
        have hni : i ∉ unsigned2vector p := hi.2
        rw [mem_unsigned2vector_lt (by omega) hp] at hni
        push_neg at hni
        cases htb : p.testBit (i - 1)
        · rfl
        · exact absurd htb (hni hi.1.1 hi.1.2)
    · rintro ⟨pr, hpr, rfl, hbit⟩
      rw [catalog_orn, List.mem_map] at hpr
      obtain ⟨j, hj, rfl⟩ := hpr
      rw [orn_mask, bitsum_testBit, if_pos hp, List.any_eq_true] at hbit
      obtain ⟨i, hij, hbit⟩ := hbit
      rw [Bool.not_eq_true'] at hbit
      have hprops := combo_lists_mem_props (Nat.le_refl n) hj
      have hi := hprops.2.2 i hij
      refine ⟨j, hj, ⟨i, ?_, hij⟩, rfl⟩
      rw [mem_negate]
      refine ⟨⟨hi.1, hi.2⟩, ?_⟩
      rw [mem_unsigned2vector_lt (by omega) hp]
      push_neg
      intro _ _
      simp [hbit]
  · rw [if_neg hON]
    simp [hON]

theorem mem_gen_andn {n M p : Nat} (hn : n ≤ 6) (hp : p < 2 ^ n) (g : String) :
    g ∈ generate_and_not_features n M (unsigned2vector p) ↔
      hasAN M = true ∧ ∃ pr ∈ catalog_andn n, pr.1 = g ∧ pr.2.testBit p = true := by
  rw [generate_and_not_features]
  by_cases hAN : hasAN M = true
  · rw [if_pos hAN, mem_sortStr, List.mem_map]
    simp only [hAN, true_and]
    constructor
    · rintro ⟨j, hj, rfl⟩
      rw [List.mem_filter, decide_eq_true_eq] at hj
      obtain ⟨hj, hall⟩ := hj
      refine ⟨(and_not_feature_name j, andn_mask n j), ?_, rfl, ?_⟩
      · rw [catalog_andn, List.mem_map]
        exact ⟨j, hj, rfl⟩
      · rw [andn_mask, bitsum_testBit, if_pos hp, List.all_eq_true]
        intro i hij
        have hi := hall i hij
        rw [mem_negate] at hi
        have hni : i ∉ unsigned2vector p := hi.2
        rw [mem_unsigned2vector_lt (by omega) hp] at hni
        push_neg at hni
        cases htb : p.testBit (i - 1)
        · rfl
        · exact absurd htb (hni hi.1.1 hi.1.2)
    · rintro ⟨pr, hpr, rfl, hbit⟩
      rw [catalog_andn, List.mem_map] at hpr
      obtain ⟨j, hj, rfl⟩ := hpr
      rw [andn_mask, bitsum_testBit, if_pos hp, List.all_eq_true] at hbit
      have hprops := combo_lists_mem_props (Nat.le_refl n) hj
      refine ⟨j, List.mem_filter.mpr ⟨hj, ?_⟩, rfl⟩
      rw [decide_eq_true_eq]
      intro i hij
      have hi := hprops.2.2 i hij
      have hb := hbit i hij
      rw [Bool.not_eq_true'] at hb
      rw [mem_negate]
      refine ⟨⟨hi.1, hi.2⟩, ?_⟩
      rw [mem_unsigned2vector_lt (by omega) hp]
      push_neg
      intro _ _
      simp [hb]
  · rw [if_neg hAN]
    simp [hAN]


/-!
## The catalog characterises the materialised systems
-/

theorem mem_generate_system {n M p : Nat} (hn : n ≤ 6) (hp : p < 2 ^ n)
    (hON : hasON M = true → hasN M = true) (hAN : hasAN M = true → hasN M = true)
    (g : String) :
    g ∈ systemList n M p ↔
      ∃ pr ∈ catalog_active n M, pr.1 = g ∧ pr.2.testBit p = true := by
  have hpS : p < S_count n := by
    rw [S_count_eq (by omega)]
    exact hp
  rw [systemList_eq hpS, generate_system, mem_sortStr]
  simp only [List.mem_append]
  rw [catalog_active]
  constructor
  · rintro (((((h | h) | h) | h) | h) | h)
    · obtain ⟨pr, hpr, hg, hb⟩ := (mem_gen_ind hn hp g).mp h
      exact ⟨pr, by simp [List.mem_append, hpr], hg, hb⟩
    · obtain ⟨hO, pr, hpr, hg, hb⟩ := (mem_gen_or hn hp g).mp h
      exact ⟨pr, by simp [List.mem_append, hO, hpr], hg, hb⟩
    · obtain ⟨hA, pr, hpr, hg, hb⟩ := (mem_gen_and hn hp g).mp h
      exact ⟨pr, by simp [List.mem_append, hA, hpr], hg, hb⟩
    · obtain ⟨hN, pr, hpr, hg, hb⟩ := (mem_gen_not hn hp g).mp h
      exact ⟨pr, by simp [List.mem_append, hN, hpr], hg, hb⟩
    · obtain ⟨hONt, pr, hpr, hg, hb⟩ := (mem_gen_orn hn hp g).mp h
      exact ⟨pr, by simp [List.mem_append, hONt, hON hONt, hpr], hg, hb⟩
    · obtain ⟨hANt, pr, hpr, hg, hb⟩ := (mem_gen_andn hn hp g).mp h
      exact ⟨pr, by simp [List.mem_append, hANt, hAN hANt, hpr], hg, hb⟩
  · rintro ⟨pr, hpr, hg, hb⟩
    simp only [List.mem_append] at hpr
    rcases hpr with ((((h | h) | h) | h) | h) | h
    · exact Or.inl (Or.inl (Or.inl (Or.inl (Or.inl
        ((mem_gen_ind hn hp g).mpr ⟨pr, h, hg, hb⟩)))))
    · by_cases hO : hasO M = true
      · rw [if_pos hO] at h
        exact Or.inl (Or.inl (Or.inl (Or.inl (Or.inr
          ((mem_gen_or hn hp g).mpr ⟨hO, pr, h, hg, hb⟩)))))
      · rw [if_neg hO] at h
        cases h
    · by_cases hA : hasA M = true
      · rw [if_pos hA] at h
        exact Or.inl (Or.inl (Or.inl (Or.inr
          ((mem_gen_and hn hp g).mpr ⟨hA, pr, h, hg, hb⟩))))
      · rw [if_neg hA] at h
        cases h
    · by_cases hN : hasN M = true
      · rw [if_pos hN] at h
        exact Or.inl (Or.inl (Or.inr
          ((mem_gen_not hn hp g).mpr ⟨hN, pr, h, hg, hb⟩)))
      · rw [if_neg hN] at h
        cases h
    · by_cases hONb : (hasON M && hasN M) = true
      · rw [if_pos hONb] at h
        rw [Bool.and_eq_true] at hONb
        exact Or.inl (Or.inr ((mem_gen_orn hn hp g).mpr ⟨hONb.1, pr, h, hg, hb⟩))
      · rw [if_neg hONb] at h
        cases h
    · by_cases hANb : (hasAN M && hasN M) = true
      · rw [if_pos hANb] at h
        rw [Bool.and_eq_true] at hANb
        exact Or.inr ((mem_gen_andn hn hp g).mpr ⟨hANb.1, pr, h, hg, hb⟩)
      · rw [if_neg hANb] at h
        cases h

theorem gated_sublist (b : Bool) (L : List (String × Nat)) :
    (if b = true then L else []).Sublist L := by
  cases b
  · rw [if_neg (by simp)]
    exact List.nil_sublist L
  · rw [if_pos rfl]

theorem catalog_active_sublist (n M : Nat) :
    (catalog_active n M).Sublist (catalog n) := by
  rw [catalog_active, catalog]
  exact (((((List.Sublist.refl (catalog_ind n)).append
    (gated_sublist (hasO M) (catalog_or n))).append
    (gated_sublist (hasA M) (catalog_and n))).append
    (gated_sublist (hasN M) (catalog_not n))).append
    (gated_sublist (hasON M && hasN M) (catalog_orn n))).append
    (gated_sublist (hasAN M && hasN M) (catalog_andn n))

theorem nodup_keys_eq :
    ∀ (l : List (String × Nat)), (l.map Prod.fst).Nodup →
      ∀ pr ∈ l, ∀ pr2 ∈ l, pr.1 = pr2.1 → pr = pr2 := by
  intro l
  induction l with
  | nil =>
    intro _ pr h
    cases h
  | cons x l ih =>
    intro hnd pr hpr pr2 hpr2 heq
    rw [List.map_cons, List.nodup_cons] at hnd
    rcases List.mem_cons.mp hpr with h1 | h1
    · rcases List.mem_cons.mp hpr2 with h2 | h2
      · rw [h1, h2]
      · apply absurd _ hnd.1
        rw [← h1, heq]
        exact List.mem_map_of_mem Prod.fst h2
    · rcases List.mem_cons.mp hpr2 with h2 | h2
      · apply absurd _ hnd.1
        rw [← h2, ← heq]
        exact List.mem_map_of_mem Prod.fst h1
      · exact ih hnd.2 pr h1 pr2 h2 heq

theorem catalog_mask_lt {n : Nat} : ∀ pr ∈ catalog n, pr.2 < 2 ^ 2 ^ n := by
  intro pr hpr
  rw [catalog] at hpr
  simp only [List.mem_append] at hpr
  rcases hpr with ((((h | h) | h) | h) | h) | h
  · rw [catalog_ind, List.mem_map] at h
    obtain ⟨x, _, rfl⟩ := h
    exact bitsum_lt _ _
  · rw [catalog_or, List.mem_map] at h
    obtain ⟨x, _, rfl⟩ := h
    exact bitsum_lt _ _
  · rw [catalog_and, List.mem_map] at h
    obtain ⟨x, _, rfl⟩ := h
    exact bitsum_lt _ _
  · rw [catalog_not, List.mem_map] at h
    obtain ⟨x, _, rfl⟩ := h
    exact bitsum_lt _ _
  · rw [catalog_orn, List.mem_map] at h
    obtain ⟨x, _, rfl⟩ := h
    exact bitsum_lt _ _
  · rw [catalog_andn, List.mem_map] at h
    obtain ⟨x, _, rfl⟩ := h
    exact bitsum_lt _ _

theorem catalog_names_nodup {n : Nat} (h : namesOK n = true) :
    ((catalog n).map Prod.fst).Nodup := by
  rw [namesOK] at h
  have h2 := nodupN_nodup _ h
  have h3 : (catalog n).map (fun pr => strKey pr.1)
      = ((catalog n).map Prod.fst).map strKey := by
    rw [List.map_map]
    rfl
  rw [h3] at h2
  exact List.Nodup.of_map strKey h2

theorem catalog_masks_nodup {n : Nat} (h : masksOK n = true) :
    ((catalog n).map Prod.snd).Nodup := by
  rw [masksOK, Bool.and_eq_true] at h
  exact nodupN_nodup _ h.1

theorem catalog_masks_pos {n : Nat} (h : masksOK n = true) :
    ∀ pr ∈ catalog n, 1 ≤ pr.2 := by
  rw [masksOK, Bool.and_eq_true] at h
  intro pr hpr
  have h2 := (List.all_eq_true.mp h.2) pr hpr
  rw [Bool.not_eq_true'] at h2
  by_contra hc
  have hz : pr.2 = 0 := by omega
  rw [hz] at h2
  cases h2

theorem maskOf_active {n M : Nat} (hn : n ≤ 6)
    (hnames : ((catalog n).map Prod.fst).Nodup)
    (hON : hasON M = true → hasN M = true) (hAN : hasAN M = true → hasN M = true)
    {pr : String × Nat} (hpr : pr ∈ catalog_active n M) :
    maskOf n M pr.1 = pr.2 := by
  have hprc : pr ∈ catalog n := (catalog_active_sublist n M).subset hpr
  rw [maskOf, S_count_eq (by omega)]
  apply bitsum_eq_of_testBit _ (catalog_mask_lt pr hprc)
  intro p hp
  by_cases hmem : pr.1 ∈ systemList n M p
  · rw [decide_eq_true hmem]
    obtain ⟨pr2, hpr2, hname, hbit⟩ := (mem_generate_system hn hp hON hAN pr.1).mp hmem
    have hpr2c : pr2 ∈ catalog n := (catalog_active_sublist n M).subset hpr2
    have : pr2 = pr := nodup_keys_eq _ hnames pr2 hpr2c pr hprc hname
    rw [← this, hbit]
  · rw [decide_eq_false hmem]
    cases htb : pr.2.testBit p
    · rfl
    · exact absurd ((mem_generate_system hn hp hON hAN pr.1).mpr ⟨pr, hpr, rfl, htb⟩) hmem

theorem all_features_iso_eq (n M : Nat) :
    all_features_iso n M = sortStr ((catalog_active n M).map Prod.fst) := by
  rw [all_features_iso, catalog_active]
  congr 1
  simp only [List.map_append]
  have hind : independent_features_iso n = (catalog_ind n).map Prod.fst := by
    rw [independent_features_iso, catalog_ind, List.map_map]
    rfl
  have hor : or_features_iso n M = (if hasO M = true then catalog_or n else []).map Prod.fst := by
    rw [or_features_iso]
    by_cases hO : hasO M = true
    · rw [if_pos hO, if_pos hO, catalog_or, List.map_map, raw_dependent_features]
      rfl
    · rw [if_neg hO, if_neg hO]
      rfl
  have hand : and_features_iso n M
      = (if hasA M = true then catalog_and n else []).map Prod.fst := by
    rw [and_features_iso]
    by_cases hA : hasA M = true
    · rw [if_pos hA, if_pos hA, catalog_and, List.map_map, raw_dependent_features]
      rfl
    · rw [if_neg hA, if_neg hA]
      rfl
  have hnot : not_features_iso n M
      = (if hasN M = true then catalog_not n else []).map Prod.fst := by
    rw [not_features_iso]
    by_cases hN : hasN M = true
    · rw [if_pos hN, if_pos hN, catalog_not, List.map_map]
      rfl
    · rw [if_neg hN, if_neg hN]
      rfl
  have horn : or_not_features_iso n M
      = (if (hasON M && hasN M) = true then catalog_orn n else []).map Prod.fst := by
    rw [or_not_features_iso]
    by_cases hON : hasON M = true
    · rw [if_pos hON]
      by_cases hN : hasN M = true
      · rw [if_pos (by rw [hON, hN]; rfl), catalog_orn, List.map_map,
          raw_dependent_features, N_count, if_pos hN]
        rfl
      · rw [if_neg (by intro hc; rw [Bool.and_eq_true] at hc; exact hN hc.2),
          N_count, if_neg hN]
        rfl
    · rw [if_neg hON, if_neg (by intro hc; rw [Bool.and_eq_true] at hc; exact hON hc.1)]
      rfl
  have handn : and_not_features_iso n M
      = (if (hasAN M && hasN M) = true then catalog_andn n else []).map Prod.fst := by
    rw [and_not_features_iso]
    by_cases hAN : hasAN M = true
    · rw [if_pos hAN]
      by_cases hN : hasN M = true
      · rw [if_pos (by rw [hAN, hN]; rfl), catalog_andn, List.map_map,
          raw_dependent_features, N_count, if_pos hN]
        rfl
      · rw [if_neg (by intro hc; rw [Bool.and_eq_true] at hc; exact hN hc.2),
          N_count, if_neg hN]
        rfl
    · rw [if_neg hAN, if_neg (by intro hc; rw [Bool.and_eq_true] at hc; exact hAN hc.1)]
      rfl
  rw [hind, hor, hand, hnot, horn, handn]


/-!
## Semantics of difference evaluation
-/

theorem SortedS_system2features (ss : List (List String)) (s : String) :
    SortedS (system2features ss s) := by
  rw [system2features]
  split
  · split
    · exact SortedS_setOfList _
    · exact List.Pairwise.nil
  · exact List.Pairwise.nil

theorem mem_inter_fold (sysF : String → List String) :
    ∀ (l acc : List String) (g : String),
      g ∈ inter_fold sysF acc l ↔ g ∈ acc ∧ ∀ x ∈ l, g ∈ sysF x := by
  intro l
  induction l with
  | nil =>
    intro acc g
    rw [inter_fold]
    simp
  | cons x rest ih =>
    intro acc g
    rw [inter_fold]
    by_cases hc : setInter acc (sysF x) = []
    · rw [if_pos hc, hc]
      simp only [List.not_mem_nil, false_iff]
      rintro ⟨hacc, hall⟩
      have hgi : g ∈ setInter acc (sysF x) :=
        (mem_setInter _ _ _).mpr ⟨hacc, hall x (List.mem_cons_self x rest)⟩
      rw [hc] at hgi
      exact absurd hgi (List.not_mem_nil g)
    · rw [if_neg hc, ih, mem_setInter]
      constructor
      · rintro ⟨⟨hacc, hx⟩, hall⟩
        refine ⟨hacc, ?_⟩
        intro y hy
        rcases List.mem_cons.mp hy with rfl | hy
        · exact hx
        · exact hall y hy
      · rintro ⟨hacc, hall⟩
        exact ⟨⟨hacc, hall x (List.mem_cons_self x rest)⟩,
          fun y hy => hall y (List.mem_cons_of_mem x hy)⟩

theorem SortedS_inter_fold (sysF : String → List String) :
    ∀ (l acc : List String), SortedS acc → SortedS (inter_fold sysF acc l) := by
  intro l
  induction l with
  | nil =>
    intro acc h
    rw [inter_fold]
    exact h
  | cons x rest ih =>
    intro acc h
    rw [inter_fold]
    by_cases hc : setInter acc (sysF x) = []
    · rw [if_pos hc]
      exact SortedS_setInter _ _ h
    · rw [if_neg hc]
      exact ih _ (SortedS_setInter _ _ h)

theorem mem_evaluate_intersections (sysF : String → List String) (I : List String)
    (g : String) :
    g ∈ evaluate_intersections sysF I ↔ I ≠ [] ∧ ∀ x ∈ I, g ∈ sysF x := by
  cases I with
  | nil =>
    show g ∈ ([] : List String) ↔ _
    simp
  | cons x rest =>
    show g ∈ inter_fold sysF (sysF x) rest ↔ _
    rw [mem_inter_fold]
    simp only [ne_eq, reduceCtorEq, not_false_eq_true, true_and]
    constructor
    · rintro ⟨hx, hall⟩
      intro y hy
      rcases List.mem_cons.mp hy with rfl | hy
      · exact hx
      · exact hall y hy
    · intro hall
      exact ⟨hall x (List.mem_cons_self x rest),
        fun y hy => hall y (List.mem_cons_of_mem x hy)⟩

theorem SortedS_evaluate_intersections (sysF : String → List String)
    (hs : ∀ x, SortedS (sysF x)) (I : List String) :
    SortedS (evaluate_intersections sysF I) := by
  cases I with
  | nil => exact List.Pairwise.nil
  | cons x rest => exact SortedS_inter_fold sysF rest (sysF x) (hs x)

theorem mem_union_fold (sysF : String → List String) :
    ∀ (l acc : List String) (g : String),
      g ∈ union_fold sysF acc l ↔ g ∈ acc ∨ ∃ y ∈ l, g ∈ sysF y := by
  intro l
  induction l with
  | nil =>
    intro acc g
    rw [union_fold]
    simp
  | cons x rest ih =>
    intro acc g
    rw [union_fold, ih, mem_setUnion]
    constructor
    · rintro ((h | h) | ⟨y, hy, hgy⟩)
      · exact Or.inl h
      · exact Or.inr ⟨x, List.mem_cons_self x rest, h⟩
      · exact Or.inr ⟨y, List.mem_cons_of_mem x hy, hgy⟩
    · rintro (h | ⟨y, hy, hgy⟩)
      · exact Or.inl (Or.inl h)
      · rcases List.mem_cons.mp hy with rfl | hy
        · exact Or.inl (Or.inr hgy)
        · exact Or.inr ⟨y, hy, hgy⟩

theorem mem_evaluate_unions (sysF : String → List String) (U : List String) (g : String) :
    g ∈ evaluate_unions sysF U ↔ ∃ y ∈ U, g ∈ sysF y := by
  cases U with
  | nil =>
    show g ∈ ([] : List String) ↔ _
    simp
  | cons x rest =>
    show g ∈ union_fold sysF (sysF x) rest ↔ _
    rw [mem_union_fold]
    constructor
    · rintro (h | ⟨y, hy, hgy⟩)
      · exact ⟨x, List.mem_cons_self x rest, h⟩
      · exact ⟨y, List.mem_cons_of_mem x hy, hgy⟩
    · rintro ⟨y, hy, hgy⟩
      rcases List.mem_cons.mp hy with rfl | hy
      · exact Or.inl hgy
      · exact Or.inr ⟨y, hy, hgy⟩

theorem mem_evaluate_difference (n M : Nat) (diff : systems_difference_t) (g : String) :
    g ∈ evaluate_difference n M diff ↔
      (diff.intersections ≠ [] ∧
        ∀ x ∈ diff.intersections, g ∈ system2features (generate_all_systems n M) x) ∧
      ¬ ∃ y ∈ diff.unions, g ∈ system2features (generate_all_systems n M) y := by
  rw [evaluate_difference, mem_setDiff, mem_evaluate_intersections, mem_evaluate_unions]

theorem SortedS_evaluate_difference (n M : Nat) (diff : systems_difference_t) :
    SortedS (evaluate_difference n M diff) := by
  rw [evaluate_difference]
  exact SortedS_setDiff _ _
    (SortedS_evaluate_intersections _ (fun x => SortedS_system2features _ x) _)

theorem mem_gdiff_inter {S e : Nat} (x : String) :
    x ∈ (generate_difference S e).intersections ↔
      ∃ p, p < S ∧ e.testBit p = true ∧ x = system_name (p + 1) := by
  show x ∈ setOfList _ ↔ _
  rw [mem_setOfList, List.mem_map]
  constructor
  · rintro ⟨p, hp, rfl⟩
    rw [List.mem_filter, List.mem_range] at hp
    exact ⟨p, hp.1, hp.2, rfl⟩
  · rintro ⟨p, hp, hb, rfl⟩
    exact ⟨p, List.mem_filter.mpr ⟨List.mem_range.mpr hp, hb⟩, rfl⟩

theorem mem_gdiff_union {S e : Nat} (x : String) :
    x ∈ (generate_difference S e).unions ↔
      ∃ p, p < S ∧ e.testBit p = false ∧ x = system_name (p + 1) := by
  show x ∈ setOfList _ ↔ _
  rw [mem_setOfList, List.mem_map]
  constructor
  · rintro ⟨p, hp, rfl⟩
    rw [List.mem_filter, List.mem_range, Bool.not_eq_true'] at hp
    exact ⟨p, hp.1, hp.2, rfl⟩
  · rintro ⟨p, hp, hb, rfl⟩
    refine ⟨p, List.mem_filter.mpr ⟨List.mem_range.mpr hp, ?_⟩, rfl⟩
    rw [Bool.not_eq_true', hb]

theorem exists_testBit_of_pos {e S : Nat} (he1 : 1 ≤ e) (he2 : e < 2 ^ S) :
    ∃ p, p < S ∧ e.testBit p = true := by
  by_contra hc
  push_neg at hc
  have he0 : e = 0 := by
    apply Nat.eq_of_testBit_eq
    intro i
    rw [Nat.zero_testBit]
    by_cases hi : i < S
    · have hci := hc i hi
      cases h : e.testBit i
      · rfl
      · exact absurd h hci
    · exact Nat.testBit_lt_two_pow
        (lt_of_lt_of_le he2 (Nat.pow_le_pow_right (by norm_num) (by omega)))
  omega

theorem mem_eval_gdiff {n M e : Nat} (hn : n ≤ 6)
    (hnames : ((catalog n).map Prod.fst).Nodup)
    (hON : hasON M = true → hasN M = true) (hAN : hasAN M = true → hasN M = true)
    (he1 : 1 ≤ e) (he2 : e < 2 ^ 2 ^ n) (g : String) :
    g ∈ evaluate_difference n M (generate_difference (S_count n) e) ↔
      (g, e) ∈ catalog_active n M := by
  have hS : S_count n = 2 ^ n := S_count_eq (by omega)
  have h2n : (2:Nat) ^ n ≤ 64 := by
    calc (2:Nat) ^ n ≤ 2 ^ 6 := Nat.pow_le_pow_right (by norm_num) hn
    _ ≤ 64 := by norm_num
  rw [mem_evaluate_difference]
  constructor
  · rintro ⟨⟨hne, hall⟩, hnotu⟩
    obtain ⟨p0, hp0, hb0⟩ := exists_testBit_of_pos he1 he2
    have hg0 : g ∈ systemList n M p0 := by
      have hx := hall (system_name (p0 + 1))
        ((mem_gdiff_inter _).mpr ⟨p0, by rw [hS]; exact hp0, hb0, rfl⟩)
      rw [system2features_name (by omega) _, mem_setOfList] at hx
      exact hx
    obtain ⟨pr, hpr, hname, hbitp⟩ := (mem_generate_system hn hp0 hON hAN g).mp hg0
    have hprc : pr ∈ catalog n := (catalog_active_sublist n M).subset hpr
    have hmask : pr.2 = e := by
      apply Nat.eq_of_testBit_eq
      intro i
      by_cases hi : i < 2 ^ n
      · by_cases hei : e.testBit i = true
        · have hx := hall (system_name (i + 1))
            ((mem_gdiff_inter _).mpr ⟨i, by rw [hS]; exact hi, hei, rfl⟩)
          rw [system2features_name (by omega) _, mem_setOfList] at hx
          obtain ⟨pr2, hpr2, hname2, hbit2⟩ := (mem_generate_system hn hi hON hAN g).mp hx
          have hpr2eq : pr2 = pr := nodup_keys_eq _ hnames pr2
            ((catalog_active_sublist n M).subset hpr2) pr hprc (by rw [hname2, hname])
          rw [hei, ← hpr2eq, hbit2]
        · have heif : e.testBit i = false := by
            cases h : e.testBit i
            · rfl
            · exact absurd h hei
          have hgi : ¬ g ∈ systemList n M i := by
            intro hgi
            apply hnotu
            refine ⟨system_name (i + 1),
              (mem_gdiff_union _).mpr ⟨i, by rw [hS]; exact hi, heif, rfl⟩, ?_⟩
            rw [system2features_name (by omega) _, mem_setOfList]
            exact hgi
          cases hpb : pr.2.testBit i
          · rw [heif]
          · exact absurd ((mem_generate_system hn hi hON hAN g).mpr ⟨pr, hpr, hname, hpb⟩)
              hgi
      · have h1 : pr.2.testBit i = false := Nat.testBit_lt_two_pow
          (lt_of_lt_of_le (catalog_mask_lt pr hprc)
            (Nat.pow_le_pow_right (by norm_num) (by omega)))
        have h2e : e.testBit i = false := Nat.testBit_lt_two_pow
          (lt_of_lt_of_le he2 (Nat.pow_le_pow_right (by norm_num) (by omega)))
        rw [h1, h2e]
    have hge : (g, e) = pr := by
      rw [← hname, ← hmask]
    rw [hge]
    exact hpr
  · intro hge
    refine ⟨⟨?_, ?_⟩, ?_⟩
    · obtain ⟨p0, hp0, hb0⟩ := exists_testBit_of_pos he1 he2
      intro hnil
      have hmem := (@mem_gdiff_inter (S_count n) e (system_name (p0 + 1))).mpr
        ⟨p0, by rw [hS]; exact hp0, hb0, rfl⟩
      rw [hnil] at hmem
      exact absurd hmem (List.not_mem_nil _)
    · intro x hx
      obtain ⟨p, hp, hb, rfl⟩ := (mem_gdiff_inter x).mp hx
      rw [hS] at hp
      rw [system2features_name (by omega) _, mem_setOfList]
      exact (mem_generate_system hn hp hON hAN g).mpr ⟨(g, e), hge, rfl, hb⟩
    · rintro ⟨x, hx, hgx⟩
      obtain ⟨p, hp, hb, rfl⟩ := (mem_gdiff_union x).mp hx
      rw [hS] at hp
      rw [system2features_name (by omega) _, mem_setOfList] at hgx
      obtain ⟨pr2, hpr2, hname2, hbit2⟩ := (mem_generate_system hn hp hON hAN g).mp hgx
      have heq : pr2 = (g, e) := nodup_keys_eq _ hnames pr2
        ((catalog_active_sublist n M).subset hpr2) (g, e)
        ((catalog_active_sublist n M).subset hge) (by rw [hname2])
      rw [heq] at hbit2
      rw [hb] at hbit2
      cases hbit2


/-!
## The three strategies against the catalog
-/

theorem isolation_difference_eq (n M : Nat) (f : String) :
    isolation_difference n M f = generate_difference (S_count n) (maskOf n M f) := by
  have hpos : ∀ p ∈ List.range (S_count n),
      decide (f ∈ systemList n M p) = (maskOf n M f).testBit p := by
    intro p hp
    rw [List.mem_range] at hp
    rw [maskOf, bitsum_testBit, if_pos hp]
  have hneg : ∀ p ∈ List.range (S_count n),
      decide (f ∉ systemList n M p) = !(maskOf n M f).testBit p := by
    intro p hp
    rw [List.mem_range] at hp
    rw [maskOf, bitsum_testBit, if_pos hp]
    by_cases h : f ∈ systemList n M p
    · rw [decide_eq_false (not_not_intro h), decide_eq_true h]
      rfl
    · rw [decide_eq_true h, decide_eq_false h]
      rfl
  rw [isolation_difference, generate_difference, List.filter_congr hpos,
    List.filter_congr hneg]

theorem nodup_vals_eq :
    ∀ (l : List (String × Nat)), (l.map Prod.snd).Nodup →
      ∀ pr ∈ l, ∀ pr2 ∈ l, pr.2 = pr2.2 → pr = pr2 := by
  intro l
  induction l with
  | nil =>
    intro _ pr h
    cases h
  | cons x l ih =>
    intro hnd pr hpr pr2 hpr2 heq
    rw [List.map_cons, List.nodup_cons] at hnd
    rcases List.mem_cons.mp hpr with h1 | h1
    · rcases List.mem_cons.mp hpr2 with h2 | h2
      · rw [h1, h2]
      · apply absurd _ hnd.1
        rw [← h1, heq]
        exact List.mem_map_of_mem Prod.snd h2
    · rcases List.mem_cons.mp hpr2 with h2 | h2
      · apply absurd _ hnd.1
        rw [← h2, ← heq]
        exact List.mem_map_of_mem Prod.snd h1
      · exact ih hnd.2 pr h1 pr2 h2 heq

theorem generate_feature_isolations_perm {n M : Nat} (hn : n ≤ 6)
    (hnames : ((catalog n).map Prod.fst).Nodup)
    (hON : hasON M = true → hasN M = true) (hAN : hasAN M = true → hasN M = true) :
    (generate_feature_isolations n M).Perm
      ((catalog_active n M).map
        (fun pr => (pr.1, generate_difference (S_count n) pr.2))) := by
  rw [generate_feature_isolations, all_features_iso_eq]
  refine ((perm_sortStr _).map _).trans ?_
  rw [List.map_map]
  have h2 : ((catalog_active n M).map
      ((fun f => (f, isolation_difference n M f)) ∘ Prod.fst))
      = (catalog_active n M).map
        (fun pr => (pr.1, generate_difference (S_count n) pr.2)) := by
    apply List.map_congr_left
    intro pr hpr
    show (pr.1, isolation_difference n M pr.1) = _
    rw [isolation_difference_eq, maskOf_active hn hnames hON hAN hpr]
  rw [h2]

theorem calc_all_eq {n M : Nat}
    (hInd : calculate_independent_features n = catalog_ind n)
    (hOr : calc_or_pairs n = catalog_or n)
    (hAnd : calc_and_pairs n = catalog_and n)
    (hNot : calc_not_pairs n = catalog_not n)
    (hOrn : calc_orn_pairs n = catalog_orn n)
    (hAndn : calc_andn_pairs n = catalog_andn n)
    (hON : hasON M = true → hasN M = true) (hAN : hasAN M = true → hasN M = true) :
    calc_all_features n M = catalog_active n M := by
  have horn : calculate_or_not_features n M
      = (if (hasON M && hasN M) = true then catalog_orn n else []) := by
    rw [calculate_or_not_features]
    by_cases hONb : hasON M = true
    · have hNb := hON hONb
      rw [if_pos hONb, if_pos (by rw [hONb, hNb]; rfl), ← hOrn, calc_orn_pairs]
      apply List.map_congr_left
      intro c _
      rw [calculate_not_features, if_pos hNb]
    · rw [if_neg hONb, if_neg (by intro hc; rw [Bool.and_eq_true] at hc; exact hONb hc.1)]
  have handn : calculate_and_not_features n M
      = (if (hasAN M && hasN M) = true then catalog_andn n else []) := by
    rw [calculate_and_not_features]
    by_cases hANb : hasAN M = true
    · have hNb := hAN hANb
      rw [if_pos hANb, if_pos (by rw [hANb, hNb]; rfl), ← hAndn, calc_andn_pairs]
      apply List.map_congr_left
      intro c _
      rw [calculate_not_features, if_pos hNb]
    · rw [if_neg hANb, if_neg (by intro hc; rw [Bool.and_eq_true] at hc; exact hANb hc.1)]
  rw [calc_all_features, catalog_active, hInd, horn, handn,
    calculate_or_features, calculate_and_features, calculate_not_features,
    hOr, hAnd, hNot]

theorem calculate_differences_perm {n M : Nat}
    (hall : calc_all_features n M = catalog_active n M) :
    ((calculate_differences n M).map feature_pair).Perm
      ((catalog_active n M).map
        (fun pr => (pr.1, generate_difference (S_count n) pr.2))) := by
  rw [calculate_differences]
  refine ((List.perm_insertionSort _ _).map feature_pair).trans ?_
  rw [hall, List.map_map]
  have h2 : ((catalog_active n M).map
      (feature_pair ∘ fun pr => calculate_difference (S_count n) pr.2 pr.1))
      = (catalog_active n M).map
        (fun pr => (pr.1, generate_difference (S_count n) pr.2)) := by
    apply List.map_congr_left
    intro pr _
    rfl
  rw [h2]


theorem eval_gdiff_eq {n M e : Nat} (hn : n ≤ 6)
    (hnames : ((catalog n).map Prod.fst).Nodup)
    (hmasks : ((catalog n).map Prod.snd).Nodup)
    (hON : hasON M = true → hasN M = true) (hAN : hasAN M = true → hasN M = true)
    (he1 : 1 ≤ e) (he2 : e < 2 ^ 2 ^ n) :
    (∀ g, (g, e) ∈ catalog_active n M →
      evaluate_difference n M (generate_difference (S_count n) e) = [g]) ∧
    ((¬ ∃ g, (g, e) ∈ catalog_active n M) →
      evaluate_difference n M (generate_difference (S_count n) e) = []) := by
  constructor
  · intro g hg
    apply SortedS_eq_of_mem_iff _ _ (SortedS_evaluate_difference _ _ _)
      (List.pairwise_singleton _ g)
    intro x
    rw [mem_eval_gdiff hn hnames hON hAN he1 he2]
    simp only [List.mem_singleton]
    constructor
    · intro hx
      have heq := nodup_vals_eq _ hmasks (x, e) ((catalog_active_sublist n M).subset hx)
        (g, e) ((catalog_active_sublist n M).subset hg) rfl
      exact congrArg Prod.fst heq
    · rintro rfl
      exact hg
  · intro hno
    apply SortedS_eq_of_mem_iff _ _ (SortedS_evaluate_difference _ _ _) List.Pairwise.nil
    intro x
    rw [mem_eval_gdiff hn hnames hON hAN he1 he2]
    simp only [List.not_mem_nil, iff_false]
    exact fun hx => hno ⟨x, hx⟩

theorem eval_gdiff_len {n M e : Nat} (hn : n ≤ 6)
    (hnames : ((catalog n).map Prod.fst).Nodup)
    (hmasks : ((catalog n).map Prod.snd).Nodup)
    (hON : hasON M = true → hasN M = true) (hAN : hasAN M = true → hasN M = true)
    (he1 : 1 ≤ e) (he2 : e < 2 ^ 2 ^ n) :
    (evaluate_difference n M (generate_difference (S_count n) e)).length ≤ 1 := by
  by_cases hex : ∃ g, (g, e) ∈ catalog_active n M
  · obtain ⟨g, hg⟩ := hex
    rw [(eval_gdiff_eq hn hnames hmasks hON hAN he1 he2).1 g hg]
    simp
  · rw [(eval_gdiff_eq hn hnames hmasks hON hAN he1 he2).2 hex]
    simp

theorem kept_entry_id {n M e : Nat} {t : system_feature_difference_t}
    (h : kept_entry n M e = some t) : t.difference_id = e := by
  rw [kept_entry] at h
  by_cases hc : (evaluate_difference n M (generate_difference (S_count n) e)).length = 1
  · rw [if_pos hc] at h
    cases h
    rfl
  · rw [if_neg hc] at h
    cases h

theorem kept_entry_some {n M e : Nat} (hn : n ≤ 6)
    (hnames : ((catalog n).map Prod.fst).Nodup)
    (hmasks : ((catalog n).map Prod.snd).Nodup)
    (hON : hasON M = true → hasN M = true) (hAN : hasAN M = true → hasN M = true)
    (he1 : 1 ≤ e) (he2 : e < 2 ^ 2 ^ n) :
    (∀ g, (g, e) ∈ catalog_active n M →
      kept_entry n M e = some ⟨e, g, generate_difference (S_count n) e⟩) ∧
    (∀ t, kept_entry n M e = some t →
      ∃ g, (g, e) ∈ catalog_active n M ∧
        t = ⟨e, g, generate_difference (S_count n) e⟩) := by
  have hE := eval_gdiff_eq hn hnames hmasks hON hAN he1 he2
  constructor
  · intro g hg
    have hR := hE.1 g hg
    rw [kept_entry, if_pos (by rw [hR]; rfl), hR]
    rfl
  · intro t ht
    rw [kept_entry] at ht
    by_cases hc : (evaluate_difference n M (generate_difference (S_count n) e)).length = 1
    · rw [if_pos hc] at ht
      by_cases hex : ∃ g, (g, e) ∈ catalog_active n M
      · obtain ⟨g, hg⟩ := hex
        refine ⟨g, hg, ?_⟩
        cases ht
        rw [hE.1 g hg]
        rfl
      · rw [hE.2 hex] at hc
        simp at hc
    · rw [if_neg hc] at ht
      cases ht

theorem kept_differences_perm {n M : Nat} (hn : n ≤ 5)
    (hnames : ((catalog n).map Prod.fst).Nodup)
    (hmasks : ((catalog n).map Prod.snd).Nodup)
    (hpos : ∀ pr ∈ catalog n, 1 ≤ pr.2)
    (hON : hasON M = true → hasN M = true) (hAN : hasAN M = true → hasN M = true) :
    ((kept_differences n M).map feature_pair).Perm
      ((catalog_active n M).map
        (fun pr => (pr.1, generate_difference (S_count n) pr.2))) := by
  have hn6 : n ≤ 6 := by omega
  have hD : D_count n = 2 ^ 2 ^ n := D_count_eq hn
  have hone : (1:Nat) ≤ 2 ^ 2 ^ n := Nat.one_le_pow _ _ (by norm_num)
  have hkd : ∀ t, t ∈ kept_differences n M ↔
      ∃ e, (1 ≤ e ∧ e < 2 ^ 2 ^ n) ∧ kept_entry n M e = some t := by
    intro t
    rw [kept_differences, List.mem_filterMap]
    constructor
    · rintro ⟨e, he, ht⟩
      rw [List.mem_range'_1, hD] at he
      exact ⟨e, ⟨he.1, by omega⟩, ht⟩
    · rintro ⟨e, he, ht⟩
      refine ⟨e, ?_, ht⟩
      rw [List.mem_range'_1, hD]
      omega
  have hkdnodup : (kept_differences n M).Nodup := by
    rw [kept_differences]
    apply List.Nodup.filterMap
    · intro a b c hca hcb
      rw [Option.mem_def] at hca hcb
      have ha := kept_entry_id hca
      have hb := kept_entry_id hcb
      omega
    · exact List.nodup_range' 1 (D_count n - 1) 1 (by norm_num)
  have hmapnodup : ((kept_differences n M).map feature_pair).Nodup := by
    apply List.Nodup.map_on _ hkdnodup
    intro t ht t2 ht2 heq
    obtain ⟨e, hb1, hke⟩ := (hkd t).mp ht
    obtain ⟨g, hg, rfl⟩ :=
      (kept_entry_some hn6 hnames hmasks hON hAN hb1.1 hb1.2).2 t hke
    obtain ⟨e2, hb2, hke2⟩ := (hkd t2).mp ht2
    obtain ⟨g2, hg2, rfl⟩ :=
      (kept_entry_some hn6 hnames hmasks hON hAN hb2.1 hb2.2).2 t2 hke2
    have hg12 : g = g2 := congrArg Prod.fst heq
    subst hg12
    have hee : (g, e) = (g, e2) := nodup_keys_eq _ hnames (g, e)
      ((catalog_active_sublist n M).subset hg) (g, e2)
      ((catalog_active_sublist n M).subset hg2) rfl
    have he12 : e = e2 := congrArg Prod.snd hee
    rw [he12]
  have hrhsnodup : (((catalog_active n M).map
      (fun pr => (pr.1, generate_difference (S_count n) pr.2)))).Nodup := by
    apply List.Nodup.of_map Prod.fst
    have hmm : (((catalog_active n M).map
        (fun pr => (pr.1, generate_difference (S_count n) pr.2))).map Prod.fst)
        = (catalog_active n M).map Prod.fst := by
      rw [List.map_map]
      rfl
    rw [hmm]
    exact hnames.sublist ((catalog_active_sublist n M).map Prod.fst)
  rw [List.perm_ext_iff_of_nodup hmapnodup hrhsnodup]
  intro x
  rw [List.mem_map, List.mem_map]
  constructor
  · rintro ⟨t, ht, rfl⟩
    obtain ⟨e, hb1, hke⟩ := (hkd t).mp ht
    obtain ⟨g, hg, rfl⟩ :=
      (kept_entry_some hn6 hnames hmasks hON hAN hb1.1 hb1.2).2 t hke
    exact ⟨(g, e), hg, rfl⟩
  · rintro ⟨pr, hpr, rfl⟩
    have hprc : pr ∈ catalog n := (catalog_active_sublist n M).subset hpr
    have he1 : 1 ≤ pr.2 := hpos pr hprc
    have he2 : pr.2 < 2 ^ 2 ^ n := catalog_mask_lt pr hprc
    have hg : (pr.1, pr.2) ∈ catalog_active n M := hpr
    have hke := (kept_entry_some hn6 hnames hmasks hON hAN he1 he2).1 pr.1 hg
    refine ⟨⟨pr.2, pr.1, generate_difference (S_count n) pr.2⟩, ?_, rfl⟩
    rw [hkd]
    exact ⟨pr.2, ⟨he1, he2⟩, hke⟩

theorem generate_non_empty_differences_ok {n M : Nat} (hn : n ≤ 5)
    (hnames : ((catalog n).map Prod.fst).Nodup)
    (hmasks : ((catalog n).map Prod.snd).Nodup)
    (hON : hasON M = true → hasN M = true) (hAN : hasAN M = true → hasN M = true) :
    generate_non_empty_differences n M = Except.ok (kept_differences n M) := by
  have hD : D_count n = 2 ^ 2 ^ n := D_count_eq hn
  have hone : (1:Nat) ≤ 2 ^ 2 ^ n := Nat.one_le_pow _ _ (by norm_num)
  have hall : ∀ e ∈ List.range' 1 (D_count n - 1),
      (evaluate_difference n M (generate_difference (S_count n) e)).length ≤ 1 := by
    intro e he
    rw [List.mem_range'_1] at he
    exact eval_gdiff_len (by omega) hnames hmasks hON hAN he.1 (by omega)
  have hspec := non_empty_differences_loop_spec n M (List.range' 1 (D_count n - 1))
  obtain ⟨L, hL⟩ := hspec.1.mpr hall
  have hfil := hspec.2 L hL
  rw [generate_non_empty_differences, hL, hfil, kept_differences]


/-!
## Finite side conditions, checked by evaluation
-/

theorem gates_ok : ∀ M ∈ List.range' 1 19,
    (hasON M = true → hasN M = true) ∧ (hasAN M = true → hasN M = true) := by decide

set_option maxRecDepth 10000 in
set_option maxHeartbeats 4000000 in
theorem side_conditions_ok : ∀ n ∈ List.range' 1 6,
    namesOK n = true ∧ masksOK n = true ∧
    calculate_independent_features n = catalog_ind n ∧
    calc_or_pairs n = catalog_or n ∧
    calc_and_pairs n = catalog_and n ∧
    calc_not_pairs n = catalog_not n ∧
    calc_orn_pairs n = catalog_orn n ∧
    calc_andn_pairs n = catalog_andn n := by decide


/-- C2: for every modeled taxonomy (F in 1..6, model in 1..19) and every
(feature, difference) pair produced by the enumeration strategy, the
difference places system q+1 in the intersection part exactly when the
feature belongs to system q's feature set and in the union part exactly
when it does not, and evaluating the difference — the intersection of the
feature sets of the intersection-part systems minus the union of the
feature sets of the union-part systems — yields exactly the singleton of
that feature. -/
theorem isolation_difference_isolates :
    ∀ n ∈ List.range' 1 6, ∀ M ∈ List.range' 1 19,
      ∀ pr ∈ generate_feature_isolations n M,
        (∀ q, q < S_count n →
          (system_name (q + 1) ∈ pr.2.intersections ↔ pr.1 ∈ systemList n M q) ∧
          (system_name (q + 1) ∈ pr.2.unions ↔ pr.1 ∉ systemList n M q)) ∧
        evaluate_difference n M pr.2 = [pr.1] := by
  intro n hn M hM pr hpr
  rw [List.mem_range'_1] at hn hM
  have hsc := side_conditions_ok n (by rw [List.mem_range'_1]; omega)
  have hg := gates_ok M (by rw [List.mem_range'_1]; omega)
  have hnames := catalog_names_nodup hsc.1
  have hmasks := catalog_masks_nodup hsc.2.1
  have hmaskpos := catalog_masks_pos hsc.2.1
  have hn6 : n ≤ 6 := by omega
  rw [generate_feature_isolations, List.mem_map] at hpr
  obtain ⟨f, hf, rfl⟩ := hpr
  rw [all_features_iso_eq, mem_sortStr, List.mem_map] at hf
  obtain ⟨entry, hentry, rfl⟩ := hf
  have hmask := maskOf_active hn6 hnames hg.1 hg.2 hentry
  have h2n : (2:Nat) ^ n ≤ 64 := by
    calc (2:Nat) ^ n ≤ 2 ^ 6 := Nat.pow_le_pow_right (by norm_num) hn6
    _ ≤ 64 := by norm_num
  constructor
  · intro q hq
    have hq64 : q < 64 := by
      rw [S_count_eq (by omega)] at hq
      omega
    constructor
    · show system_name (q + 1) ∈ (isolation_difference n M entry.1).intersections ↔ _
      rw [isolation_difference_eq, mem_gdiff_inter]
      constructor
      · rintro ⟨p, hp, hb, heq⟩
        have hp64 : p < 64 := by
          rw [S_count_eq (by omega)] at hp
          omega
        have hpq : q = p := system_name_inj64 q (List.mem_range.mpr hq64) p
          (List.mem_range.mpr hp64) heq
        subst hpq
        rw [maskOf, bitsum_testBit, if_pos hq] at hb
        exact of_decide_eq_true hb
      · intro hmem
        refine ⟨q, hq, ?_, rfl⟩
        rw [maskOf, bitsum_testBit, if_pos hq]
        exact decide_eq_true hmem
    · show system_name (q + 1) ∈ (isolation_difference n M entry.1).unions ↔ _
      rw [isolation_difference_eq, mem_gdiff_union]
      constructor
      · rintro ⟨p, hp, hb, heq⟩
        have hp64 : p < 64 := by
          rw [S_count_eq (by omega)] at hp
          omega
        have hpq : q = p := system_name_inj64 q (List.mem_range.mpr hq64) p
          (List.mem_range.mpr hp64) heq
        subst hpq
        rw [maskOf, bitsum_testBit, if_pos hq] at hb
        exact of_decide_eq_false hb
      · intro hmem
        refine ⟨q, hq, ?_, rfl⟩
        rw [maskOf, bitsum_testBit, if_pos hq]
        exact decide_eq_false hmem
  · show evaluate_difference n M (isolation_difference n M entry.1) = [entry.1]
    rw [isolation_difference_eq, hmask]
    have hprc : entry ∈ catalog n := (catalog_active_sublist n M).subset hentry
    exact (eval_gdiff_eq hn6 hnames hmasks hg.1 hg.2 (hmaskpos entry hprc)
      (catalog_mask_lt entry hprc)).1 entry.1 hentry

/-- Witness for C2 at F = 1, M = 1, on the pair for feature "f1". -/
theorem isolation_difference_isolates_witness :
    (∀ q, q < S_count 1 →
      (system_name (q + 1) ∈
          (("f1", systems_difference_t.mk ["S2"] ["S1"]) :
            String × systems_difference_t).2.intersections ↔
        ("f1", systems_difference_t.mk ["S2"] ["S1"]).1 ∈ systemList 1 1 q) ∧
      (system_name (q + 1) ∈
          (("f1", systems_difference_t.mk ["S2"] ["S1"]) :
            String × systems_difference_t).2.unions ↔
        ("f1", systems_difference_t.mk ["S2"] ["S1"]).1 ∉ systemList 1 1 q)) ∧
    evaluate_difference 1 1
        (("f1", systems_difference_t.mk ["S2"] ["S1"]) :
          String × systems_difference_t).2
      = [(("f1", systems_difference_t.mk ["S2"] ["S1"]) :
          String × systems_difference_t).1] :=
  isolation_difference_isolates 1 (by decide) 1 (by decide)
    ("f1", systems_difference_t.mk ["S2"] ["S1"]) (by decide)

/-- C1 (corrected): for F in 1..6 and every model id 1..19 the enumeration
strategy and the closed-form strategy produce the same multiset of
(feature, difference) pairs; for F ≤ 5 the exhaustive id-search strategy
returns normally and produces that same multiset of pairs.  (At F = 6 the
exhaustive strategy degenerates because D = 2^64 overflows to 0 — see the
counterexample theorem.) -/
theorem three_strategies_agree :
    ∀ n ∈ List.range' 1 6, ∀ M ∈ List.range' 1 19,
      (((calculate_differences n M).map feature_pair).Perm
        (generate_feature_isolations n M)) ∧
      (n ≤ 5 → ∃ L, generate_non_empty_differences n M = Except.ok L ∧
        ((L.map feature_pair).Perm (generate_feature_isolations n M))) := by
  intro n hn M hM
  rw [List.mem_range'_1] at hn hM
  have hsc := side_conditions_ok n (by rw [List.mem_range'_1]; omega)
  have hg := gates_ok M (by rw [List.mem_range'_1]; omega)
  have hnames := catalog_names_nodup hsc.1
  have hmasks := catalog_masks_nodup hsc.2.1
  have hmaskpos := catalog_masks_pos hsc.2.1
  have hn6 : n ≤ 6 := by omega
  have hiso := generate_feature_isolations_perm hn6 hnames hg.1 hg.2
  constructor
  · have hcalc := calculate_differences_perm
      (calc_all_eq hsc.2.2.1 hsc.2.2.2.1 hsc.2.2.2.2.1 hsc.2.2.2.2.2.1
        hsc.2.2.2.2.2.2.1 hsc.2.2.2.2.2.2.2 hg.1 hg.2)
    exact hcalc.trans hiso.symm
  · intro hn5
    refine ⟨kept_differences n M,
      generate_non_empty_differences_ok hn5 hnames hmasks hg.1 hg.2, ?_⟩
    exact (kept_differences_perm hn5 hnames hmasks hmaskpos hg.1 hg.2).trans hiso.symm

/-- Witness for C1 at F = 1, M = 1. -/
theorem three_strategies_agree_witness :
    (((calculate_differences 1 1).map feature_pair).Perm
      (generate_feature_isolations 1 1)) ∧
    ((1:Nat) ≤ 5 → ∃ L, generate_non_empty_differences 1 1 = Except.ok L ∧
      ((L.map feature_pair).Perm (generate_feature_isolations 1 1))) :=
  three_strategies_agree 1 (by decide) 1 (by decide)

/-- C1 counterexample: at F = 6 (any model, here M = 1) the exhaustive
strategy returns the empty list — `D = power2(64)` overflows to 0, so the
id loop `e = 1 … D-1` never runs — while the enumeration strategy still
produces one pair per feature, so the three strategies do not coincide on
all of F = 1..6. -/
theorem exhaustive_degenerates_at_F6 :
    generate_non_empty_differences 6 1 = Except.ok [] ∧
    generate_feature_isolations 6 1 ≠ [] := by
  constructor
  · rfl
  · intro h
    have hlen := congrArg List.length h
    rw [generate_feature_isolations, List.length_map] at hlen
    revert hlen
    decide


end Features
